import Mathlib

/-!
Verification development for the Indexer repository: a shallow embedding of
the indexing pipeline (selection rules, file walk, chunker, indexing run
loop) and of the retrieval engine (keyword / semantic / hybrid search of
`server.mjs` and of the worker in `src/unnamed/part_004` / `part_005`),
together with theorems settling the frozen claims about it.

Modelling conventions:
* JavaScript strings are modelled as `List Char` (one element per UTF-16
  code unit of the source's strings; all concrete inputs are ASCII, where
  the two notions agree), wrapped in `String` at API boundaries.
* JavaScript numbers are modelled exactly: integer counters as `Nat`,
  scores as `ℚ` where the source computes only field operations, and as
  `ℝ` where `Math.sqrt` enters (cosine similarity).  `Math.sqrt` is
  modelled as `Real.sqrt`.
* `string.toLowerCase()` is modelled as `Char.toLower` on each character
  (ASCII lowering; every concrete input in this file is ASCII).
-/

namespace Indexer

/-- Lowercase a list of characters (model of `String.prototype.toLowerCase`). -/
def lowerL (s : List Char) : List Char := s.map Char.toLower

/-- `startsWithL hay pre` is true iff `pre` is an initial segment of `hay`
(model of `String.prototype.startsWith`). -/
def startsWithL : List Char → List Char → Bool
  | _, [] => true
  | [], _ :: _ => false
  | a :: as, b :: bs => a = b && startsWithL as bs

/-- `containsSub hay needle` is true iff `needle` occurs contiguously inside
`hay` (model of `String.prototype.includes`). -/
def containsSub : List Char → List Char → Bool
  | [], needle => startsWithL [] needle
  | hay@(_ :: t), needle => startsWithL hay needle || containsSub t needle

/-- Index of the first occurrence of `needle` in `hay`, if any
(model of `String.prototype.indexOf`; `indexOf("")` is `0`). -/
def subIdx : List Char → List Char → Option Nat
  | hay, needle =>
    if startsWithL hay needle then some 0
    else match hay with
      | [] => none
      | _ :: t => (subIdx t needle).map (· + 1)

/-- Split a character list at every whitespace character.  Composed with the
source's `.filter(t => t.length > 0)` this yields the same token list as
JavaScript's `split(/\s+/)` (the regex form merely merges adjacent
separators, producing empty tokens that the filter removes). -/
def splitWsAux : List Char → List Char → List (List Char)
  | acc, [] => [acc.reverse]
  | acc, c :: rest =>
    if c.isWhitespace then acc.reverse :: splitWsAux [] rest
    else splitWsAux (c :: acc) rest

def splitWs (s : List Char) : List (List Char) := splitWsAux [] s

theorem lengthDropWhile_le (p : Char → Bool) (l : List Char) :
    (l.dropWhile p).length ≤ l.length := by
  induction l with
  | nil => simp [List.dropWhile]
  | cons a t ih =>
    by_cases h : p a
    · simpa [List.dropWhile, h] using Nat.le_succ_of_le ih
    · simp [List.dropWhile, h]

/-- Split at every occurrence of a literal backslash followed by one or more
`s` characters.  This is the semantics of `split(/\\s+/)` as it literally
appears in `src/unnamed/part_004`'s `keywordScore`: inside a regex literal
`\\` denotes one backslash character, so the pattern matches `\s`, `\ss`,
… — not whitespace. -/
def splitBSGo : Bool → List Char → List Char → List (List Char)
  | _, acc, [] => [acc.reverse]
  | true, acc, 's' :: rest => splitBSGo true acc rest
  | _, acc, '\\' :: 's' :: rest => acc.reverse :: splitBSGo true [] rest
  | _, acc, c :: rest => splitBSGo false (c :: acc) rest

def splitBS (s : List Char) : List (List Char) := splitBSGo false [] s

/-- Keyword score of `src/.../rag-backend/src/server.mjs` (`keywordScore`,
identical to the copy in the repository's own test script
`src/unnamed/part_007`): the fraction of whitespace-delimited,
lowercased query terms that occur as substrings of the lowercased text.
`!text || !query` is the emptiness test on strings. -/
def keywordScore (text query : String) : ℚ :=
  if text.toList = [] ∨ query.toList = [] then 0
  else
    let lowerText := lowerL text.toList
    let terms := (splitWs (lowerL query.toList)).filter (fun t => t.length > 0)
    if terms.length = 0 then 0
    else (terms.countP (fun t => containsSub lowerText t) : ℚ) / (terms.length : ℚ)

/-- Keyword score exactly as written in `src/unnamed/part_004` line 641,
whose split regex is `/\\s+/` (a literal backslash followed by `s`s)
rather than `/\s+/`: the query is therefore split at literal `\s`
sequences, not at whitespace. -/
def keywordScoreP4 (text query : String) : ℚ :=
  if text.toList = [] ∨ query.toList = [] then 0
  else
    let lowerText := lowerL text.toList
    let terms := (splitBS (lowerL query.toList)).filter (fun t => t.length > 0)
    if terms.length = 0 then 0
    else (terms.countP (fun t => containsSub lowerText t) : ℚ) / (terms.length : ℚ)

/-! ### Glob matching and the selection-rule walk (`src/unnamed/part_005`) -/

/-- Replace every backslash by a forward slash
(model of `replaceAll('\\', '/')`). -/
def replSlash (s : List Char) : List Char :=
  s.map (fun c => if c = '\\' then '/' else c)

/-- Split at every occurrence of the three-character separator `**/`
(model of `pattern.split('**/')`: non-overlapping, leftmost matches). -/
def splitOnDSSAux : List Char → List Char → List (List Char)
  | acc, '*' :: '*' :: '/' :: rest => acc.reverse :: splitOnDSSAux [] rest
  | acc, c :: rest => splitOnDSSAux (c :: acc) rest
  | acc, [] => [acc.reverse]

def splitOnDSS (s : List Char) : List (List Char) := splitOnDSSAux [] s

/-- Split at every `*` character (model of `pattern.split('*')`). -/
def splitOnStarAux : List Char → List Char → List (List Char)
  | acc, '*' :: rest => acc.reverse :: splitOnStarAux [] rest
  | acc, c :: rest => splitOnStarAux (c :: acc) rest
  | acc, [] => [acc.reverse]

def splitOnStar (s : List Char) : List (List Char) := splitOnStarAux [] s

/-- `endsWithL hay suf` is true iff `suf` is a final segment of `hay`. -/
def endsWithL (hay suf : List Char) : Bool :=
  startsWithL hay.reverse suf.reverse

/-- Matcher for the middle and final literal segments of the single-`*`
branch of `matchesGlob`: the source compiles the pattern to the anchored
regex `^seg₀.*seg₁.* … .*segₙ$` (escaping `.`, mapping `*` to `.*`).  After
the leading segment has been consumed, each middle segment is searched
left-to-right and the final segment must be a suffix of what remains. -/
def starTail : List (List Char) → List Char → Bool
  | [], text => text.isEmpty
  | [last], text => endsWithL text last
  | s :: rest, text =>
    match subIdx text s with
    | none => false
    | some i => starTail rest (text.drop (i + s.length))

/-- Anchored match of a `*`-glob given as the list of literal segments
(the pattern split at `*`).  Characters other than `*` are treated
literally, matching the regex the source builds for patterns whose
characters are not regex metacharacters (the source escapes `.` and maps
`*` to `.*`; every rule pattern exercised here is of that shape). -/
def starSegsMatch : List (List Char) → List Char → Bool
  | [], text => text.isEmpty
  | [s], text => text = s
  | s :: rest, text => startsWithL text s && starTail rest (text.drop s.length)

/-- The loop of the `**` branch of `matchesGlob`: the pattern is split on
`**/`; each non-empty part, with its remaining `*`s deleted, must occur in
order as a substring, the search resuming *at* (not after) each match. -/
def doubleStarLoop : List (List Char) → List Char → Bool
  | [], _ => true
  | part :: parts, current =>
    if part = [] then doubleStarLoop parts current
    else
      match subIdx current (part.filter (· ≠ '*')) with
      | none => false
      | some idx => doubleStarLoop parts (current.drop idx)

/-- `matchesGlob` of `src/unnamed/part_005` lines 334–362: path and pattern
are slash-normalised; a pattern without `*` is a case-insensitive
directory-prefix test; a pattern containing `**` is matched by
`doubleStarLoop` on its `**/`-parts; otherwise the pattern is compiled to
an anchored case-insensitive regex with `*` ↦ `.*`. -/
def matchesGlob (filePath pattern : String) : Bool :=
  let normalized := replSlash filePath.toList
  let normPattern := replSlash pattern.toList
  if ¬ normPattern.contains '*' then
    let base := if endsWithL normPattern ['/'] then normPattern else normPattern ++ ['/']
    startsWithL (lowerL normalized) (lowerL base)
  else if containsSub normPattern ['*', '*'] then
    doubleStarLoop (splitOnDSS normPattern) normalized
  else
    starSegsMatch ((splitOnStar normPattern).map lowerL) (lowerL normalized)

/-- A selection rule set: ordered include and exclude pattern lists. -/
structure Selection where
  include_ : List String
  exclude : List String

/-- The per-entry selection test of `collectFiles` (lines 310–313): an entry
passes iff the include list is empty or some include pattern matches, and
no exclude pattern matches (`if (!matches || excluded) continue`). -/
def entrySelected (sel : Selection) (p : String) : Bool :=
  (sel.include_.isEmpty || sel.include_.any (fun rule => matchesGlob p rule)) &&
    ! sel.exclude.any (fun rule => matchesGlob p rule)

/-- An abstract filesystem entry: a file or a directory with children.
`readdir` on a directory is modelled by its `children` list. -/
inductive FSEntry where
  | file (name : String)
  | dir (name : String) (children : List FSEntry)

/-- `path.join(folderPath, entry.name)`, with `/` as separator (the source
runs on Windows and joins with `\`, which `matchesGlob` immediately
normalises back to `/`; the model joins with `/` directly). -/
def joinPath (folderPath name : String) : String :=
  folderPath ++ "/" ++ name

/-- The extension allow-list of `collectFiles` (line 318). -/
def allowedExts : List String :=
  [".pdf", ".docx", ".xlsx", ".pptx", ".txt", ".md", ".csv", ".json",
   ".yaml", ".yml", ".js", ".ts", ".tsx", ".jsx", ".css", ".mjs", ".py", ".html"]

/-- `path.basename(p)`: the last path segment (paths in this model always
use `/` as separator). -/
def basenameStr (p : String) : String :=
  String.mk ((p.toList.reverse.takeWhile (· ≠ '/')).reverse)

/-- `path.extname(p)`: the substring of the last path segment from its
final dot (inclusive), or empty when the segment has no dot past
position 0 (a dotfile has no extension). -/
def extnameCore (p : String) : List Char :=
  let base := (p.toList.reverse.takeWhile (· ≠ '/')).reverse
  let afterDot := base.reverse.takeWhile (· ≠ '.')
  if afterDot.length < base.length then
    -- `base` contains a dot; its last dot sits at index
    -- `base.length - afterDot.length - 1`, and a dot at index 0 means a
    -- dotfile (extension-less for `path.extname`).
    if base.length - afterDot.length - 1 = 0 then []
    else '.' :: afterDot.reverse
  else []

/-- `path.extname(p).toLowerCase()` as used by the walker and `processFile`. -/
def extnameLower (p : String) : String :=
  String.mk (lowerL (extnameCore p))

/-- `collectFiles` of `src/unnamed/part_005` lines 293–329, as a function of
the directory's path and its entry list: prune beyond `maxDepth`; return
nothing if the folder itself matches an exclude rule; otherwise test each
entry with the include/exclude rules, yield selected files whose extension
is allow-listed, and recurse into selected directories with `depth + 1`. -/
def collectFiles (sel : Selection) (maxDepth : Nat) :
    Nat → String → List FSEntry → List String
  | depth, folderPath, entries =>
    if maxDepth < depth then []
    else if sel.exclude.any (fun rule => matchesGlob folderPath rule) then []
    else
      (entries.attach.map (fun ⟨e, _⟩ =>
        match e with
        | .file name =>
          let fullPath := joinPath folderPath name
          if entrySelected sel fullPath then
            if allowedExts.contains (extnameLower fullPath) then [fullPath] else []
          else []
        | .dir name children =>
          let fullPath := joinPath folderPath name
          if entrySelected sel fullPath then
            collectFiles sel maxDepth (depth + 1) fullPath children
          else [])).flatten
  termination_by _ _ entries => sizeOf entries
  decreasing_by
    simp_wf
    rename_i he _
    have h1 := List.sizeOf_lt_of_mem he
    simp only [FSEntry.dir.sizeOf_spec] at h1
    omega

/-! ### The chunker (`processFile`, `src/unnamed/part_005` lines 390–402) -/

/-- `String.prototype.trim`: strip leading and trailing whitespace. -/
def trimChars (cs : List Char) : List Char :=
  ((cs.dropWhile Char.isWhitespace).reverse.dropWhile Char.isWhitespace).reverse

/-- The chunking loop of `processFile`:
`for (let i = 0; i < text.length; i += CHUNK_SIZE - CHUNK_OVERLAP)` with
`CHUNK_SIZE = 500`, `CHUNK_OVERLAP = 100`; each window is
`text.substring(i, end).trim()` with `end = Math.min(i + 500, text.length)`,
kept only when longer than 50, and the loop breaks when `end >= text.length`.
The `fuel` argument only bounds the iteration count so that the recursion is
structural; `chunkText` supplies `t.length + 1`, which exceeds the number of
iterations (the loop advances `i` by 400 > 0 each time). -/
def chunkLoop (t : List Char) : Nat → Nat → List (List Char)
  | _, 0 => []
  | i, fuel + 1 =>
    if i < t.length then
      let e := min (i + 500) t.length
      let c := trimChars ((t.drop i).take (e - i))
      let kept := if 50 < c.length then [c] else []
      if t.length ≤ i + 500 then kept
      else kept ++ chunkLoop t (i + 400) fuel
    else []

/-- `chunk(text)`: the chunk list produced by `processFile` for one text. -/
def chunkText (t : List Char) : List (List Char) := chunkLoop t 0 (t.length + 1)

/-- Modelled from the spec's words, for comparison with `chunkText`: the
number of windows the chunker visits — windows start at multiples of the
advance step 400 and the iteration stops at the first window reaching
end-of-text. -/
def numWindows (n : Nat) : Nat :=
  if n = 0 then 0 else (if n ≤ 500 then 0 else (n - 101) / 400) + 1

/-- Modelled from the spec's words: the trimmed window of `t` at start
position `400 * k`, kept only if its trimmed length exceeds 50. -/
def windowChunk (t : List Char) (k : Nat) : Option (List Char) :=
  let i := 400 * k
  let c := trimChars ((t.drop i).take (min (i + 500) t.length - i))
  if 50 < c.length then some c else none

/-- Modelled from the spec's words: the chunk sequence described by the
spec — one window every 400 characters, each kept iff its trimmed length
exceeds 50, ending at the first window that reaches end-of-text. -/
def specChunks (t : List Char) : List (List Char) :=
  (List.range (numWindows t.length)).filterMap (windowChunk t)

theorem head?_dropWhile_not (p : Char → Bool) (l : List Char) :
    ∀ x ∈ (l.dropWhile p).head?, p x = false := by
  induction l with
  | nil => simp [List.dropWhile]
  | cons a t ih =>
    by_cases h : p a
    · simpa [List.dropWhile, h] using ih
    · simp only [List.dropWhile, h]
      intro x hx
      simp only [List.head?_cons, Option.mem_def, Option.some.injEq] at hx
      simpa [← hx] using h

theorem dropWhile_eq_self_of_head (p : Char → Bool) (l : List Char)
    (h : ∀ x ∈ l.head?, p x = false) : l.dropWhile p = l := by
  cases l with
  | nil => simp [List.dropWhile]
  | cons a t =>
    have ha : p a = false := h a (by simp)
    simp [List.dropWhile, ha]

theorem getLast?_dropWhile (p : Char → Bool) (l : List Char) :
    l.dropWhile p = [] ∨ (l.dropWhile p).getLast? = l.getLast? := by
  induction l with
  | nil => simp [List.dropWhile]
  | cons a t ih =>
    by_cases h : p a
    · simp only [List.dropWhile, h]
      by_cases hdt : t.dropWhile p = []
      · exact Or.inl hdt
      · right
        rcases ih with ih | ih
        · exact absurd ih hdt
        · rw [ih]
          cases ht : t with
          | nil =>
            subst ht
            simp [List.dropWhile] at hdt
          | cons b u => simp [List.getLast?_cons_cons]
    · right
      simp [List.dropWhile, h]

/-- The chunks pushed by `processFile` are already trimmed, so trimming them
again is the identity (trimming is idempotent). -/
theorem trimChars_idem (l : List Char) :
    trimChars (trimChars l) = trimChars l := by
  by_cases hv : (l.dropWhile Char.isWhitespace).reverse.dropWhile Char.isWhitespace = []
  · simp [trimChars, hv, List.dropWhile]
  · unfold trimChars
    set u := l.dropWhile Char.isWhitespace with hu
    set v := u.reverse.dropWhile Char.isWhitespace with hv2
    have hhead : ∀ x ∈ v.head?, Char.isWhitespace x = false :=
      head?_dropWhile_not Char.isWhitespace u.reverse
    have hlast : v.getLast? = u.head? := by
      rcases getLast?_dropWhile Char.isWhitespace u.reverse with h | h
      · exact absurd h hv
      · rw [← hv2] at h
        rw [h, List.getLast?_reverse]
    have h1 : v.reverse.dropWhile Char.isWhitespace = v.reverse := by
      apply dropWhile_eq_self_of_head
      intro x hx
      rw [List.head?_reverse, hlast] at hx
      exact head?_dropWhile_not Char.isWhitespace l x hx
    rw [h1, List.reverse_reverse]
    have h2 : v.dropWhile Char.isWhitespace = v :=
      dropWhile_eq_self_of_head _ _ hhead
    rw [h2]

theorem numWindows_pos (n : Nat) (hn : 0 < n) : 0 < numWindows n := by
  unfold numWindows
  have h : ¬ n = 0 := by omega
  simp [h]

theorem numWindows_le (n : Nat) : numWindows n ≤ n + 1 := by
  unfold numWindows
  by_cases h0 : n = 0
  · simp [h0]
  · simp only [h0, if_false]
    by_cases h5 : n ≤ 500
    · simp only [h5, if_true]; omega
    · simp only [h5, if_false]
      have := Nat.div_le_self (n - 101) 400
      omega

theorem lt_numWindows_start (n j : Nat) (hj : j < numWindows n) :
    400 * j < n := by
  unfold numWindows at hj
  by_cases h0 : n = 0
  · simp [h0] at hj
  · simp only [h0, if_false] at hj
    by_cases h5 : n ≤ 500
    · simp [h5] at hj; omega
    · simp only [h5, if_false] at hj
      omega

theorem numWindows_last (n j : Nat) (hj : j < numWindows n)
    (hl : n ≤ 400 * j + 500) : j + 1 = numWindows n := by
  unfold numWindows at hj ⊢
  by_cases h0 : n = 0
  · simp [h0] at hj
  · simp only [h0, if_false] at hj ⊢
    by_cases h5 : n ≤ 500
    · simp [h5] at hj ⊢; omega
    · simp only [h5, if_false] at hj ⊢
      omega

theorem numWindows_not_last (n j : Nat) (hj : j < numWindows n)
    (hl : 400 * j + 500 < n) : j + 1 < numWindows n := by
  unfold numWindows at hj ⊢
  by_cases h0 : n = 0
  · simp [h0] at hj
  · simp only [h0, if_false] at hj ⊢
    by_cases h5 : n ≤ 500
    · omega
    · simp only [h5, if_false] at hj ⊢
      omega

/-- The chunk loop, started at the `j`-th window position with enough fuel,
produces exactly the windows `j, j+1, …` of the spec-side description. -/
theorem chunkLoop_spec (t : List Char) :
    ∀ fuel j, j < numWindows t.length → numWindows t.length - j ≤ fuel →
      chunkLoop t (400 * j) fuel =
        (List.range' j (numWindows t.length - j)).filterMap (windowChunk t) := by
  intro fuel
  induction fuel with
  | zero => intro j hj hf; omega
  | succ fuel ih =>
    intro j hj hf
    have hlt : 400 * j < t.length := lt_numWindows_start _ _ hj
    rw [chunkLoop]
    simp only [hlt, if_true]
    by_cases hlast : t.length ≤ 400 * j + 500
    · have hj1 : j + 1 = numWindows t.length := numWindows_last _ _ hj hlast
      have hd : numWindows t.length - j = 1 := by omega
      rw [hd]
      simp only [List.range', List.filterMap, hlast, if_true, windowChunk]
      split <;> simp_all
    · have hj2 : j + 1 < numWindows t.length :=
        numWindows_not_last _ _ hj (by omega)
      have hd : numWindows t.length - j = (numWindows t.length - (j + 1)) + 1 := by
        omega
      rw [hd, List.range'_succ]
      have hrec := ih (j + 1) hj2 (by omega)
      have h400 : 400 * (j + 1) = 400 * j + 400 := by ring
      rw [h400] at hrec
      simp only [hlast, if_false, List.filterMap, hrec, windowChunk]
      split <;> simp_all

/-- The chunker agrees with the spec-side description: one window per
multiple of 400, kept iff its trimmed length exceeds 50, stopping at the
first window that reaches end-of-text. -/
theorem chunkText_eq_specChunks (t : List Char) : chunkText t = specChunks t := by
  by_cases h0 : t.length = 0
  · unfold chunkText specChunks chunkLoop numWindows
    simp [h0]
  · have h1 : 0 < numWindows t.length := numWindows_pos _ (by omega)
    have h2 := chunkLoop_spec t (t.length + 1) 0 h1
      (by have := numWindows_le t.length; omega)
    simpa [chunkText, specChunks, List.range_eq_range'] using h2

/-- Every chunk the chunker outputs is a trimmed window whose length
exceeds 50; trimming it again changes nothing. -/
theorem chunkText_threshold (t : List Char) :
    ∀ c ∈ chunkText t, 50 < c.length ∧ trimChars c = c := by
  intro c hc
  rw [chunkText_eq_specChunks] at hc
  unfold specChunks at hc
  rcases List.mem_filterMap.mp hc with ⟨k, _, hk⟩
  unfold windowChunk at hk
  by_cases h : 50 <
      (trimChars ((t.drop (400 * k)).take
        (min (400 * k + 500) t.length - 400 * k))).length
  · simp only [h, if_true, Option.some.injEq] at hk
    subst hk
    exact ⟨h, trimChars_idem _⟩
  · simp [h] at hk

/-- Every path the walk yields passed the per-entry selection test
(`if (!matches || excluded) continue` in `collectFiles`). -/
theorem mem_collectFiles_selected (sel : Selection) (maxDepth : Nat) :
    ∀ (entries : List FSEntry) (depth : Nat) (folderPath p : String),
      p ∈ collectFiles sel maxDepth depth folderPath entries →
      entrySelected sel p = true := by
  suffices H : ∀ (n : Nat) (entries : List FSEntry), sizeOf entries ≤ n →
      ∀ (depth : Nat) (folderPath p : String),
        p ∈ collectFiles sel maxDepth depth folderPath entries →
        entrySelected sel p = true by
    intro entries depth folderPath p hp
    exact H (sizeOf entries) entries le_rfl depth folderPath p hp
  intro n
  induction n with
  | zero =>
    intro entries hsz
    cases entries <;> simp at hsz
  | succ n ihn =>
    intro entries hsz depth folderPath p hp
    rw [collectFiles] at hp
    split at hp
    · simp at hp
    · split at hp
      · simp at hp
      · rcases List.mem_flatten.mp hp with ⟨l, hl, hpl⟩
        rcases List.mem_map.mp hl with ⟨⟨e, he⟩, _, hle⟩
        subst hle
        cases e with
        | file name =>
          simp only at hpl
          split at hpl
          · split at hpl
            · rcases List.mem_singleton.mp hpl with rfl
              assumption
            · simp at hpl
          · simp at hpl
        | dir name children =>
          simp only at hpl
          split at hpl
          · have hszc : sizeOf children ≤ n := by
              have h1 := List.sizeOf_lt_of_mem he
              have h2 : sizeOf (FSEntry.dir name children) =
                  1 + sizeOf name + sizeOf children := by simp
              omega
            exact ihn children hszc _ _ p hpl
          · simp at hpl

/-- The per-entry selection test, characterised: selected iff (the include
list is empty or some include rule matches) and no exclude rule matches. -/
theorem entrySelected_iff (sel : Selection) (p : String) :
    entrySelected sel p = true ↔
      ((sel.include_ = [] ∨ ∃ r ∈ sel.include_, matchesGlob p r = true) ∧
        ∀ r ∈ sel.exclude, matchesGlob p r = false) := by
  unfold entrySelected
  simp only [Bool.and_eq_true, Bool.or_eq_true, List.isEmpty_iff,
    List.any_eq_true, Bool.not_eq_true', List.any_eq_false,
    Bool.not_eq_true]

/-! ### The retrieval engine
(`src/Instr/indexer-control-panel/apps/rag-backend/src/server.mjs`; the
copy of this code in `src/unnamed/part_004` is line-for-line identical
except that its `keywordScore` splits on the regex `/\\s+/`, modelled
separately as `keywordScoreP4`). -/

/-- The dot product accumulated by `cosineSimilarity`'s loop. -/
def dotQ (a b : List ℚ) : ℚ := (List.zipWith (· * ·) a b).sum

/-- The squared magnitude accumulated by `cosineSimilarity`'s loop. -/
def sumsqQ (a : List ℚ) : ℚ := (a.map (fun x => x * x)).sum

open Classical in
/-- `cosineSimilarity(a, b)`: `0` when either vector is missing or the
lengths differ; otherwise `dot / mag` with `mag = √(Σa²)·√(Σb²)`, guarded
by `mag === 0`.  Vector components are rationals; `Math.sqrt` is
`Real.sqrt`, so the score lives in `ℝ`. -/
noncomputable def cosineSimilarity (a b : Option (List ℚ)) : ℝ :=
  match a, b with
  | some a, some b =>
    if a.length = b.length then
      let mag : ℝ := Real.sqrt (sumsqQ a : ℝ) * Real.sqrt (sumsqQ b : ℝ)
      if mag = 0 then 0 else ((dotQ a b : ℚ) : ℝ) / mag
    else 0
  | _, _ => 0

/-- One stored chunk record of the loaded index snapshot
(`indexData.embeddings[i]`). -/
structure IndexItem where
  filePath : String
  chunkIndex : Nat
  text : String
  embedding : Option (List ℚ)

/-- `` `chunk_${item.filePath}_${item.chunkIndex}` ``. -/
def chunkIdOf (it : IndexItem) : String :=
  "chunk_" ++ it.filePath ++ "_" ++ toString it.chunkIndex

/-- A scored candidate (`{...item, chunkId, score}`). -/
structure ScoredItem where
  item : IndexItem
  chunkId : String
  score : ℝ

open Classical in
/-- Insert into a descending-sorted list, after every element of greater or
equal score. -/
noncomputable def insertDesc (x : ScoredItem) : List ScoredItem → List ScoredItem
  | [] => [x]
  | y :: ys => if y.score ≤ x.score then x :: y :: ys else y :: insertDesc x ys

open Classical in
/-- `scored.sort((a, b) => b.score - a.score)`: a stable descending sort
(V8's `Array.prototype.sort` is stable, so equal scores retain their
original order). -/
noncomputable def sortByScoreDesc : List ScoredItem → List ScoredItem
  | [] => []
  | x :: xs => insertDesc x (sortByScoreDesc xs)

open Classical in
/-- `semanticSearch(queryEmbed, topK, minScore)`: score every stored item by
cosine similarity with the query embedding, keep scores `≥ minScore`, sort
descending, truncate to `topK`.  Returns `[]` when `queryEmbed` is null. -/
noncomputable def semanticSearch (snapshot : List IndexItem)
    (queryEmbed : Option (List ℚ)) (topK : Nat) (minScore : ℝ) :
    List ScoredItem :=
  match queryEmbed with
  | none => []
  | some qe =>
    (sortByScoreDesc
      ((snapshot.map (fun it =>
        ⟨it, chunkIdOf it, cosineSimilarity (some qe) it.embedding⟩)).filter
        (fun x => minScore ≤ x.score))).take topK

open Classical in
/-- `keywordSearch(query, topK, minScore)`: same pipeline with the keyword
score. -/
noncomputable def keywordSearch (snapshot : List IndexItem) (query : String)
    (topK : Nat) (minScore : ℝ) : List ScoredItem :=
  (sortByScoreDesc
    ((snapshot.map (fun it =>
      ⟨it, chunkIdOf it, ((keywordScore it.text query : ℚ) : ℝ)⟩)).filter
      (fun x => minScore ≤ x.score))).take topK

open Classical in
/-- `hybridSearch(queryEmbed, query, topK, minScore)`: the single-pass
weighted combination `0.7 × semantic + 0.3 × keyword` over every candidate.
(Defined in both server files but never invoked by the `/api/search`
endpoint.) -/
noncomputable def hybridSearch (snapshot : List IndexItem)
    (queryEmbed : Option (List ℚ)) (query : String) (topK : Nat)
    (minScore : ℝ) : List ScoredItem :=
  (sortByScoreDesc
    ((snapshot.map (fun it =>
      ⟨it, chunkIdOf it,
        (0.7 : ℝ) * cosineSimilarity queryEmbed it.embedding +
          (0.3 : ℝ) * ((keywordScore it.text query : ℚ) : ℝ)⟩)).filter
      (fun x => minScore ≤ x.score))).take topK

/-- A JavaScript `Map` from chunk ids to scored items, as an insertion-order
association list (`Map` preserves insertion order; `set` on an existing key
replaces the value in place). -/
abbrev MergeMap := List (String × ScoredItem)

def mapLookup : MergeMap → String → Option ScoredItem
  | [], _ => none
  | (k, v) :: rest, key => if k = key then some v else mapLookup rest key

def mapSet : MergeMap → String → ScoredItem → MergeMap
  | [], k, v => [(k, v)]
  | (k', v') :: rest, k, v =>
    if k' = k then (k', v) :: rest else (k', v') :: mapSet rest k v

open Classical in
/-- The merge loop of the endpoint's hybrid branch: insert all keyword
results, then fold in the semantic results, averaging the two scores when a
chunk id is already present (the replacement takes the *semantic* result's
fields, per `{...r, score: (existing.score + r.score) / 2}`); finally read
the map's values in insertion order. -/
noncomputable def hybridMerge (keyResults semResults : List ScoredItem) :
    List ScoredItem :=
  let m1 := keyResults.foldl (fun m r => mapSet m r.chunkId r) []
  let m2 := semResults.foldl (fun m r =>
    match mapLookup m r.chunkId with
    | some ex => mapSet m r.chunkId { r with score := (ex.score + r.score) / 2 }
    | none => mapSet m r.chunkId r) m1
  m2.map Prod.snd

/-- `Math.min(100, Math.max(1, body.topK || 20))`: `topK` absent or `0`
(falsy) defaults to 20, then is clamped to `[1, 100]`. -/
def resolveTopK (bodyTopK : Option Nat) : Nat :=
  min 100 (max 1 (match bodyTopK with
    | some n => if n = 0 then 20 else n
    | none => 20))

/-- One element of the `chunks` array of the `/api/search` response. -/
structure ResultChunk where
  chunkId : String
  path : String
  title : String
  section_ : String
  fileType : String
  modifiedAt : String
  score : ℝ
  text : String
  highlights : List String

/-- The response mapping of `/api/search`: `modifiedAt` is
`new Date().toISOString()` — the wall-clock time at response construction,
passed here as `now`. -/
noncomputable def mkResultChunk (now : String) (r : ScoredItem) : ResultChunk :=
  { chunkId := r.chunkId
    path := r.item.filePath
    title := basenameStr r.item.filePath
    section_ := "Chunk " ++ toString r.item.chunkIndex
    fileType := String.mk ((extnameCore r.item.filePath).drop 1)
    modifiedAt := now
    score := r.score
    text := String.mk (r.item.text.toList.take 500)
    highlights := [] }

open Classical in
/-- The `chunks` list returned by `fastify.post("/api/search")`.
`queryEmbed` is the result of `await getQueryEmbedding(query)` (`none`
models a failed embedding lookup); `bodyMinScore` is
`body.filters?.minScore ?? 0.3`; an empty snapshot returns the
"No index loaded" response, whose `chunks` is `[]`. -/
noncomputable def searchChunks (snapshot : List IndexItem)
    (queryEmbed : Option (List ℚ)) (query mode : String)
    (bodyTopK : Option Nat) (bodyMinScore : Option ℝ) (now : String) :
    List ResultChunk :=
  let topK := resolveTopK bodyTopK
  let minScore := bodyMinScore.getD (0.3 : ℝ)
  if snapshot.length = 0 then []
  else
    let results :=
      if mode = "semantic" then
        match queryEmbed with
        | some _ => semanticSearch snapshot queryEmbed topK minScore
        | none => keywordSearch snapshot query topK minScore
      else if mode = "hybrid" then
        let keyResults := keywordSearch snapshot query topK minScore
        let semResults :=
          match queryEmbed with
          | some _ => semanticSearch snapshot queryEmbed topK minScore
          | none => []
        (sortByScoreDesc (hybridMerge keyResults semResults)).take topK
      else keywordSearch snapshot query topK minScore
    results.map (mkResultChunk now)

/-! ### The indexing run (`runIndexing` and its helpers,
`src/unnamed/part_005`).

The run is modelled as a deterministic function of: the enumerated file
list (the walker's output, with each file's content attached), whether the
embedding service initialised within its startup timeout (`embedInit`),
the external embedding model's response vector for a text (`embedFn` —
the service contract returns one vector per input, `count` = batch size),
and the arrival point of a `stop` IPC message (`stopAt = some i` delivers
it at the cooperative check before file `i`; `none`, or `i` past the end,
is a run without stop).  `pause`/`resume` and embedding-call failures are
outside the claims settled here and are not modelled; no exception escapes
this model's main loop, so the fatal `error` path is never taken (matching
the source, where per-file and per-batch failures are caught locally). -/

/-- A chunk queued in `embeddingBuffer` (`{filePath, chunkIndex, text}`). -/
structure ChunkMeta where
  filePath : String
  chunkIndex : Nat
  text : String
  deriving DecidableEq

/-- An `embeddingsStore` record. -/
structure StoredRecord where
  filePath : String
  chunkIndex : Nat
  text : String
  embedding : List ℚ
  deriving DecidableEq

/-- Ghost instrumentation naming the `sendUpdate()` call site that produced
a stats message; it adds no information to the payload and does not affect
any counter. -/
inductive Trigger where
  /-- line 507: after `filesQueued` is set. -/
  | queued
  /-- line 524: the per-file cadence check
  `after === 1 || after % 50 === 0 || !res.success`. -/
  | fileLoop (success : Bool)
  /-- line 282: the end of a successful `processPendingEmbeddings` batch. -/
  | batch
  /-- line 568: the end of `runIndexing`. -/
  | final
  deriving DecidableEq

/-- The IPC messages `runIndexing` (and the `stop` handler) emit, with the
claim-relevant payload fields. -/
inductive Msg where
  | stats (trigger : Trigger) (state : String)
      (filesQueued filesProcessed filesFailed chunksGenerated chunksEmbedded : Nat)
  | warning (text : String)
  | error (text : String)
  | complete (filesProcessed filesFailed chunksEmbedded : Nat)
  | stopped
  deriving DecidableEq

/-- The worker's mutable `STATE`, the embedding buffer and store, and the
emitted message log. -/
structure WState where
  running : Bool
  paused : Bool
  filesQueued : Nat
  filesProcessed : Nat
  filesFailed : Nat
  bytesProcessed : Nat
  chunksGenerated : Nat
  chunksEmbedded : Nat
  embeddingsPending : Nat
  embeddingEnabled : Bool
  buffer : List ChunkMeta
  store : List StoredRecord
  snapshotSaved : Bool
  log : List Msg
  deriving DecidableEq

/-- The `state` field of a stats payload:
`STATE.paused ? 'paused' : (STATE.running ? 'embedding' : 'idle')`. -/
def stateName (st : WState) : String :=
  if st.paused then "paused" else if st.running then "embedding" else "idle"

/-- `sendUpdate()`: push a stats snapshot onto the log. -/
def sendUpdate (tr : Trigger) (st : WState) : WState :=
  { st with log := st.log ++ [Msg.stats tr (stateName st) st.filesQueued
      st.filesProcessed st.filesFailed st.chunksGenerated st.chunksEmbedded] }

/-- `processPendingEmbeddings()`: nothing on an empty buffer; with
embeddings disabled, drain the whole buffer without embedding (and without
an update); otherwise embed one batch of up to `BATCH_SIZE = 10` chunks,
append the vectors to the store, advance `chunksEmbedded` by the batch
size, decrease `embeddingsPending` (clamped at 0), and `sendUpdate()`. -/
def processPendingEmbeddings (embedFn : String → List ℚ) (st : WState) :
    WState :=
  if st.buffer.isEmpty then st
  else if ¬ st.embeddingEnabled then
    { st with buffer := [], embeddingsPending := 0 }
  else
    let batch := st.buffer.take 10
    let st1 : WState := { st with
      buffer := st.buffer.drop 10,
      store := st.store ++ batch.map (fun c =>
        { filePath := c.filePath, chunkIndex := c.chunkIndex, text := c.text,
          embedding := embedFn c.text }),
      chunksEmbedded := st.chunksEmbedded + batch.length,
      embeddingsPending := st.embeddingsPending - batch.length }
    sendUpdate .batch st1

/-- One input file for a run: its path, its content, and whether
`fs.stat`/reading succeeds (`ok = false` models the per-file catch that
counts the file as failed). -/
structure FileInput where
  path : String
  content : String
  ok : Bool
  deriving DecidableEq

/-- The text-like extensions read directly by `processFile` (line 375). -/
def textExts : List String :=
  [".txt", ".md", ".mjs", ".js", ".py", ".json", ".yaml", ".yml", ".csv",
   ".html", ".css", ".tsx", ".ts", ".jsx"]

/-- `processFile(filePath)`: failed stat counts the file as failed; a
non-text extension or empty/whitespace text counts it processed with zero
chunks; otherwise the text is chunked, counters advance, the chunks are
queued, and one batch is drained if the buffer has reached `BATCH_SIZE`.
`stat.size` is modelled as the content's character count (no claim uses
`bytesProcessed`).  Returns the updated state and `res.success`. -/
def processFileW (embedFn : String → List ℚ) (f : FileInput) (st : WState) :
    WState × Bool :=
  if ¬ f.ok then ({ st with filesFailed := st.filesFailed + 1 }, false)
  else
    let size := f.content.length
    let text := if textExts.contains (extnameLower f.path) then f.content else ""
    if text.toList = [] ∨ (trimChars text.toList).length = 0 then
      ({ st with filesProcessed := st.filesProcessed + 1
                 bytesProcessed := st.bytesProcessed + size }, true)
    else
      let chunks := chunkText text.toList
      let newMeta : List ChunkMeta := chunks.enum.map (fun ic =>
        { filePath := f.path, chunkIndex := ic.1, text := String.mk ic.2 })
      let st1 : WState := { st with
        filesProcessed := st.filesProcessed + 1,
        bytesProcessed := st.bytesProcessed + size,
        chunksGenerated := st.chunksGenerated + chunks.length,
        buffer := st.buffer ++ newMeta,
        embeddingsPending := st.embeddingsPending + chunks.length }
      let st2 := if 10 ≤ st1.buffer.length
        then processPendingEmbeddings embedFn st1 else st1
      (st2, true)

/-- The `for (const filePath of filePaths)` loop: deliver the `stop` signal
at the boundary `stopAt` (its handler sets `running = false`, clears
`paused`, and replies `stopped`), exit when no longer running, process the
file, and `sendUpdate()` when `after === 1 || after % 50 === 0 ||
!res.success` where `after` counts processed plus failed files. -/
def runLoop (embedFn : String → List ℚ) (stopAt : Option Nat) :
    List FileInput → Nat → WState → WState
  | [], _, st => st
  | f :: rest, i, st =>
    let st0 := if stopAt = some i then
        { st with running := false, paused := false, log := st.log ++ [Msg.stopped] }
      else st
    if ¬ st0.running then st0
    else
      let p := processFileW embedFn f st0
      let after := p.1.filesProcessed + p.1.filesFailed
      let st2 := if after = 1 ∨ after % 50 = 0 ∨ p.2 = false
        then sendUpdate (.fileLoop p.2) p.1 else p.1
      runLoop embedFn stopAt rest (i + 1) st2

/-- `while (embeddingBuffer.length > 0) await processPendingEmbeddings()`.
The fuel only makes the recursion structural; every call on a non-empty
buffer removes at least one chunk, so `buffer.length` suffices. -/
def drainBuffer (embedFn : String → List ℚ) : Nat → WState → WState
  | 0, st => st
  | fuel + 1, st =>
    if st.buffer.isEmpty then st
    else drainBuffer embedFn fuel (processPendingEmbeddings embedFn st)

/-- `runIndexing(selection, config)` after the `start` handler has reset
the counters: initialise the embedding service (failure is caught and
downgraded to a warning, continuing with embeddings disabled), record
`filesQueued`, `sendUpdate()`, run the file loop, flush the remaining
buffer, save the index if any record was stored, emit `complete` if the
run was not stopped, and send a final update. -/
def startState (embedInit : Bool) (nfiles : Nat) : WState :=
  { running := true, paused := false, filesQueued := nfiles, filesProcessed := 0,
    filesFailed := 0, bytesProcessed := 0, chunksGenerated := 0,
    chunksEmbedded := 0, embeddingsPending := 0,
    embeddingEnabled := embedInit, buffer := [], store := [],
    snapshotSaved := false,
    log := if embedInit then [] else
      [Msg.warning "Embedding service failed. Continuing without GPU embeddings."] }

def runIndexing (files : List FileInput) (embedInit : Bool)
    (embedFn : String → List ℚ) (stopAt : Option Nat) : WState :=
  let st2 := sendUpdate .queued (startState embedInit files.length)
  let st3 := runLoop embedFn stopAt files 0 st2
  let st4 := drainBuffer embedFn st3.buffer.length st3
  let st5 := if st4.store.isEmpty then st4 else { st4 with snapshotSaved := true }
  let st6 := if st5.running then
      { st5 with running := false, log := st5.log ++
          [Msg.complete st5.filesProcessed st5.filesFailed st5.chunksEmbedded] }
    else st5
  sendUpdate .final st6

/-! ### Score bounds and ordering infrastructure -/

theorem sumsqQ_nonneg (a : List ℚ) : 0 ≤ sumsqQ a := by
  unfold sumsqQ
  induction a with
  | nil => simp
  | cons x xs ih =>
    simp only [List.map, List.sum_cons]
    nlinarith [sq_nonneg x]

theorem dotQ_cons (a b : ℚ) (as bs : List ℚ) :
    dotQ (a :: as) (b :: bs) = a * b + dotQ as bs := by
  simp [dotQ]

theorem sumsqQ_cons (a : ℚ) (as : List ℚ) :
    sumsqQ (a :: as) = a * a + sumsqQ as := by
  simp [sumsqQ]

/-- Cauchy–Schwarz for the loop-computed dot product and magnitudes. -/
theorem dotQ_sq_le (a b : List ℚ) :
    dotQ a b ^ 2 ≤ sumsqQ a * sumsqQ b := by
  induction a generalizing b with
  | nil => simp [dotQ, sumsqQ]
  | cons a0 as ih =>
    cases b with
    | nil => simp [dotQ, sumsqQ]
    | cons b0 bs =>
      have hD := ih bs
      have hA : 0 ≤ sumsqQ as := sumsqQ_nonneg as
      have hB : 0 ≤ sumsqQ bs := sumsqQ_nonneg bs
      rw [dotQ_cons, sumsqQ_cons, sumsqQ_cons]
      rcases lt_or_eq_of_le hB with hB0 | hB0
      · nlinarith [sq_nonneg (a0 * sumsqQ bs - b0 * dotQ as bs),
          mul_nonneg (sub_nonneg.2 hD) (sq_nonneg b0),
          mul_nonneg (sub_nonneg.2 hD) hB0.le]
      · have hDz : dotQ as bs = 0 := by
          have h2 : dotQ as bs ^ 2 ≤ 0 := by
            calc dotQ as bs ^ 2 ≤ sumsqQ as * sumsqQ bs := hD
              _ = 0 := by rw [← hB0, mul_zero]
          nlinarith [sq_nonneg (dotQ as bs)]
        rw [hDz, ← hB0]
        nlinarith [mul_nonneg hA (sq_nonneg b0)]

theorem cosineSimilarity_le_one (a b : Option (List ℚ)) :
    cosineSimilarity a b ≤ 1 := by
  unfold cosineSimilarity
  match a, b with
  | none, _ => norm_num
  | some a, none => norm_num
  | some a, some b =>
    by_cases hlen : a.length = b.length
    · simp only [hlen, if_true]
      set mag : ℝ := Real.sqrt ((sumsqQ a : ℚ) : ℝ) *
        Real.sqrt ((sumsqQ b : ℚ) : ℝ) with hmag
      by_cases hz : mag = 0
      · simp [hz]
      · simp only [hz, if_false]
        have hmagpos : 0 < mag := by
          rcases lt_or_eq_of_le (by positivity : (0 : ℝ) ≤ mag) with h | h
          · exact h
          · exact absurd h.symm hz
        rw [div_le_one hmagpos]
        have hcs : ((dotQ a b : ℚ) : ℝ) ^ 2 ≤
            ((sumsqQ a : ℚ) : ℝ) * ((sumsqQ b : ℚ) : ℝ) := by
          exact_mod_cast dotQ_sq_le a b
        have h1 : ((dotQ a b : ℚ) : ℝ) ≤
            Real.sqrt (((sumsqQ a : ℚ) : ℝ) * ((sumsqQ b : ℚ) : ℝ)) := by
          have h2 : ((dotQ a b : ℚ) : ℝ) ≤ |((dotQ a b : ℚ) : ℝ)| := le_abs_self _
          have h3 : |((dotQ a b : ℚ) : ℝ)| =
              Real.sqrt (((dotQ a b : ℚ) : ℝ) ^ 2) := by
            rw [Real.sqrt_sq_eq_abs]
          rw [h3] at h2
          exact h2.trans (Real.sqrt_le_sqrt hcs)
        calc ((dotQ a b : ℚ) : ℝ)
            ≤ Real.sqrt (((sumsqQ a : ℚ) : ℝ) * ((sumsqQ b : ℚ) : ℝ)) := h1
          _ = mag := by
              rw [hmag, Real.sqrt_mul (by exact_mod_cast sumsqQ_nonneg a)]
    · simp [hlen]

theorem keywordScore_nonneg (text query : String) :
    0 ≤ keywordScore text query := by
  simp only [keywordScore]
  split
  · norm_num
  · split
    · norm_num
    · positivity

theorem keywordScore_le_one (text query : String) :
    keywordScore text query ≤ 1 := by
  simp only [keywordScore]
  split
  · norm_num
  · split
    · norm_num
    · rename_i hne
      rw [div_le_one (by exact_mod_cast Nat.pos_of_ne_zero hne)]
      exact_mod_cast List.countP_le_length _

theorem insertDesc_perm (x : ScoredItem) (l : List ScoredItem) :
    List.Perm (insertDesc x l) (x :: l) := by
  induction l with
  | nil => simp [insertDesc]
  | cons y ys ih =>
    rw [insertDesc]
    split
    · exact List.Perm.refl _
    · exact (ih.cons y).trans (List.Perm.swap x y ys)

theorem sortByScoreDesc_perm (l : List ScoredItem) :
    List.Perm (sortByScoreDesc l) l := by
  induction l with
  | nil => simp [sortByScoreDesc]
  | cons x xs ih =>
    rw [sortByScoreDesc]
    exact (insertDesc_perm x (sortByScoreDesc xs)).trans (ih.cons x)

theorem mem_sortByScoreDesc {x : ScoredItem} {l : List ScoredItem} :
    x ∈ sortByScoreDesc l ↔ x ∈ l :=
  (sortByScoreDesc_perm l).mem_iff

/-! ### Association-list facts for the hybrid merge map -/

theorem mem_mapSet {m : MergeMap} {k : String} {v : ScoredItem} :
    ∀ kv ∈ mapSet m k v, kv ∈ m ∨ kv = (k, v) := by
  induction m with
  | nil =>
    intro kv hkv
    simp only [mapSet, List.mem_singleton] at hkv
    exact Or.inr hkv
  | cons hd rest ih =>
    intro kv hkv
    rw [mapSet] at hkv
    split at hkv
    · rename_i heq
      rcases List.mem_cons.mp hkv with h | h
      · exact Or.inr (by rw [h, heq])
      · exact Or.inl (List.mem_cons_of_mem _ h)
    · rcases List.mem_cons.mp hkv with h | h
      · exact Or.inl (by rw [h]; exact List.mem_cons_self _ _)
      · rcases ih kv h with h2 | h2
        · exact Or.inl (List.mem_cons_of_mem _ h2)
        · exact Or.inr h2

theorem mapLookup_mem {m : MergeMap} {k : String} {v : ScoredItem}
    (h : mapLookup m k = some v) : (k, v) ∈ m := by
  induction m with
  | nil => simp [mapLookup] at h
  | cons hd rest ih =>
    rw [mapLookup] at h
    split at h
    · rename_i heq
      rcases Option.some.injEq _ _ ▸ h with rfl
      rw [← heq]
      exact List.mem_cons_self _ _
    · exact List.mem_cons_of_mem _ (ih h)

/-- Every value of the hybrid merge map is bounded below by `ms` when all
keyword and semantic results are. -/
theorem hybridMerge_score_ge (ms : ℝ) (kr sr : List ScoredItem)
    (hk : ∀ r ∈ kr, ms ≤ r.score) (hs : ∀ r ∈ sr, ms ≤ r.score) :
    ∀ v ∈ hybridMerge kr sr, ms ≤ v.score := by
  have step1 : ∀ (l : List ScoredItem) (m : MergeMap),
      (∀ kv ∈ m, ms ≤ kv.2.score) → (∀ r ∈ l, ms ≤ r.score) →
      ∀ kv ∈ l.foldl (fun m r => mapSet m r.chunkId r) m, ms ≤ kv.2.score := by
    intro l
    induction l with
    | nil => intro m hm _ kv hkv; exact hm kv hkv
    | cons r rest ih =>
      intro m hm hl kv hkv
      refine ih (mapSet m r.chunkId r) ?_ ?_ kv hkv
      · intro kv2 hkv2
        rcases mem_mapSet kv2 hkv2 with h | h
        · exact hm kv2 h
        · rw [h]; exact hl r (List.mem_cons_self _ _)
      · intro r2 hr2; exact hl r2 (List.mem_cons_of_mem _ hr2)
  have step2 : ∀ (l : List ScoredItem) (m : MergeMap),
      (∀ kv ∈ m, ms ≤ kv.2.score) → (∀ r ∈ l, ms ≤ r.score) →
      ∀ kv ∈ l.foldl (fun m r =>
        match mapLookup m r.chunkId with
        | some ex => mapSet m r.chunkId { r with score := (ex.score + r.score) / 2 }
        | none => mapSet m r.chunkId r) m, ms ≤ kv.2.score := by
    intro l
    induction l with
    | nil => intro m hm _ kv hkv; exact hm kv hkv
    | cons r rest ih =>
      intro m hm hl kv hkv
      simp only [List.foldl_cons] at hkv
      have hr : ms ≤ r.score := hl r (List.mem_cons_self _ _)
      have hrest : ∀ r2 ∈ rest, ms ≤ r2.score := fun r2 hr2 =>
        hl r2 (List.mem_cons_of_mem _ hr2)
      cases hlk : mapLookup m r.chunkId with
      | some ex =>
        rw [hlk] at hkv
        refine ih _ ?_ hrest kv hkv
        intro kv2 hkv2
        rcases mem_mapSet kv2 hkv2 with h | h
        · exact hm kv2 h
        · have hex : ms ≤ ex.score := hm (r.chunkId, ex) (mapLookup_mem hlk)
          rw [h]
          simp only
          linarith
      | none =>
        rw [hlk] at hkv
        refine ih _ ?_ hrest kv hkv
        intro kv2 hkv2
        rcases mem_mapSet kv2 hkv2 with h | h
        · exact hm kv2 h
        · rw [h]; exact hr
  intro v hv
  unfold hybridMerge at hv
  rcases List.mem_map.mp hv with ⟨kv, hkv, rfl⟩
  exact step2 sr _ (step1 kr [] (by simp) hk) hs kv hkv

theorem keys_mapSet (m : MergeMap) (k : String) (v : ScoredItem) :
    (mapSet m k v).map Prod.fst =
      if k ∈ m.map Prod.fst then m.map Prod.fst
      else m.map Prod.fst ++ [k] := by
  induction m with
  | nil => simp [mapSet]
  | cons hd rest ih =>
    rw [mapSet]
    split
    · rename_i heq
      simp [heq]
    · rename_i hne
      have : ¬ k = hd.1 := fun h => hne (by rw [h])
      by_cases hmem : k ∈ rest.map Prod.fst
      · simp [ih, hmem, this]
      · simp only [List.map_cons, List.mem_cons]
        rw [if_neg (by
          intro hc
          rcases hc with hc | hc
          · exact this hc
          · exact hmem hc)]
        simp [ih, hmem]

theorem nodup_keys_mapSet {m : MergeMap} {k : String} {v : ScoredItem}
    (h : (m.map Prod.fst).Nodup) : ((mapSet m k v).map Prod.fst).Nodup := by
  rw [keys_mapSet]
  split
  · exact h
  · rename_i hnm
    simp [List.nodup_append, h, hnm]

theorem keys_subset_mapSet (m : MergeMap) (k : String) (v : ScoredItem) :
    ∀ k2 ∈ m.map Prod.fst, k2 ∈ (mapSet m k v).map Prod.fst := by
  intro k2 hk2
  rw [keys_mapSet]
  split
  · exact hk2
  · exact List.mem_append_left _ hk2

theorem mem_keys_mapSet (m : MergeMap) (k : String) (v : ScoredItem) :
    k ∈ (mapSet m k v).map Prod.fst := by
  rw [keys_mapSet]
  split
  · assumption
  · simp

theorem mapLookup_none_iff {m : MergeMap} {k : String} :
    mapLookup m k = none ↔ k ∉ m.map Prod.fst := by
  induction m with
  | nil => simp [mapLookup]
  | cons hd rest ih =>
    rw [mapLookup]
    split
    · rename_i heq
      simp [← heq]
    · rename_i hne
      have : ¬ k = hd.1 := fun h => hne (by rw [h])
      simp [ih, this]

/-- With no duplicate keys, an entry of `mapSet m k v` is either an
untouched old entry (whose key is not `k`) or the new pair. -/
theorem mem_mapSet_nodup {m : MergeMap} {k : String} {v : ScoredItem}
    (hnd : (m.map Prod.fst).Nodup) :
    ∀ kv ∈ mapSet m k v, (kv ∈ m ∧ kv.1 ≠ k) ∨ kv = (k, v) := by
  induction m with
  | nil =>
    intro kv hkv
    simp only [mapSet, List.mem_singleton] at hkv
    exact Or.inr hkv
  | cons hd rest ih =>
    intro kv hkv
    rw [mapSet] at hkv
    split at hkv
    · rename_i heq
      rcases List.mem_cons.mp hkv with h | h
      · exact Or.inr (by rw [h, heq])
      · left
        refine ⟨List.mem_cons_of_mem _ h, ?_⟩
        intro hc
        have hk1 : hd.1 ∉ rest.map Prod.fst := by
          simp only [List.map_cons, List.nodup_cons] at hnd
          exact hnd.1
        exact hk1 (by rw [heq, ← hc]; exact List.mem_map_of_mem _ h)
    · rename_i hne
      have hnd2 : (rest.map Prod.fst).Nodup := by
        simp only [List.map_cons, List.nodup_cons] at hnd
        exact hnd.2
      rcases List.mem_cons.mp hkv with h | h
      · left
        refine ⟨by rw [h]; exact List.mem_cons_self _ _, ?_⟩
        rw [h]
        exact fun hc => hne (by rw [hc])
      · rcases ih hnd2 kv h with ⟨h2, h3⟩ | h2
        · exact Or.inl ⟨List.mem_cons_of_mem _ h2, h3⟩
        · exact Or.inr h2

theorem mapSet_append {m : MergeMap} {k : String} {v : ScoredItem}
    (h : k ∉ m.map Prod.fst) : mapSet m k v = m ++ [(k, v)] := by
  induction m with
  | nil => simp [mapSet]
  | cons hd rest ih =>
    rw [mapSet]
    simp only [List.map_cons, List.mem_cons] at h
    push_neg at h
    rw [if_neg (fun hc => h.1 hc.symm), ih h.2]
    simp

/-- Inserting a list with fresh, duplicate-free keys appends its entries in
order (the structure of the map after the keyword-result loop). -/
theorem foldl_mapSet_append :
    ∀ (l : List ScoredItem) (m : MergeMap),
      (∀ r ∈ l, r.chunkId ∉ m.map Prod.fst) →
      (l.map ScoredItem.chunkId).Nodup →
      l.foldl (fun m r => mapSet m r.chunkId r) m =
        m ++ l.map (fun r => (r.chunkId, r)) := by
  intro l
  induction l with
  | nil => intro m _ _; simp
  | cons r rest ih =>
    intro m hdisj hnd
    simp only [List.foldl_cons]
    have hset : mapSet m r.chunkId r = m ++ [(r.chunkId, r)] :=
      mapSet_append (hdisj r (List.mem_cons_self _ _))
    simp only [List.map_cons, List.nodup_cons] at hnd
    rw [hset, ih (m ++ [(r.chunkId, r)]) ?_ hnd.2]
    · simp
    · intro r2 hr2
      simp only [List.map_append, List.mem_append, List.map_cons,
        List.map_nil, List.mem_singleton]
      push_neg
      refine ⟨fun hc => hdisj r2 (List.mem_cons_of_mem _ hr2) hc, ?_⟩
      intro hc
      exact hnd.1 (hc ▸ List.mem_map_of_mem ScoredItem.chunkId hr2)

/-- Characterisation of the endpoint's hybrid merge: with duplicate-free
chunk ids on both sides, every merged value is a keyword-only result (its
id absent from the semantic list), a semantic-only result (its id absent
from the keyword list), or the semantic result carrying the average of the
two scores. -/
theorem hybridMerge_cases (kr sr : List ScoredItem)
    (hkn : (kr.map ScoredItem.chunkId).Nodup)
    (hsn : (sr.map ScoredItem.chunkId).Nodup) :
    ∀ v ∈ hybridMerge kr sr,
      (∃ r ∈ kr, v = r ∧ r.chunkId ∉ sr.map ScoredItem.chunkId) ∨
      (∃ r ∈ sr, v = r ∧ r.chunkId ∉ kr.map ScoredItem.chunkId) ∨
      (∃ rk ∈ kr, ∃ rs ∈ sr, rk.chunkId = rs.chunkId ∧
        v = { rs with score := (rk.score + rs.score) / 2 }) := by
  have step : ∀ (l : List ScoredItem) (m : MergeMap),
      (∀ x ∈ l, x ∈ sr) →
      (l.map ScoredItem.chunkId).Nodup →
      (m.map Prod.fst).Nodup →
      (∀ r ∈ kr, r.chunkId ∈ m.map Prod.fst) →
      (∀ kv ∈ m,
        (∃ r ∈ kr, kv = (r.chunkId, r) ∧
          (kv.1 ∉ sr.map ScoredItem.chunkId ∨ kv.1 ∈ l.map ScoredItem.chunkId)) ∨
        (((∃ r ∈ sr, kv = (r.chunkId, r) ∧ r.chunkId ∉ kr.map ScoredItem.chunkId) ∨
          (∃ rk ∈ kr, ∃ rs ∈ sr, rk.chunkId = rs.chunkId ∧
            kv = (rs.chunkId, { rs with score := (rk.score + rs.score) / 2 }))) ∧
          kv.1 ∉ l.map ScoredItem.chunkId)) →
      ∀ kv ∈ l.foldl (fun m r =>
          match mapLookup m r.chunkId with
          | some ex => mapSet m r.chunkId { r with score := (ex.score + r.score) / 2 }
          | none => mapSet m r.chunkId r) m,
        (∃ r ∈ kr, kv = (r.chunkId, r) ∧ kv.1 ∉ sr.map ScoredItem.chunkId) ∨
        (∃ r ∈ sr, kv = (r.chunkId, r) ∧ r.chunkId ∉ kr.map ScoredItem.chunkId) ∨
        (∃ rk ∈ kr, ∃ rs ∈ sr, rk.chunkId = rs.chunkId ∧
          kv = (rs.chunkId, { rs with score := (rk.score + rs.score) / 2 })) := by
    intro l
    induction l with
    | nil =>
      intro m _ _ _ _ hinv kv hkv
      rcases hinv kv hkv with ⟨r, hrk, hkvr, hd⟩ | ⟨h23, _⟩
      · rcases hd with hd | hd
        · exact Or.inl ⟨r, hrk, hkvr, hd⟩
        · simp at hd
      · rcases h23 with h2 | h3
        · exact Or.inr (Or.inl h2)
        · exact Or.inr (Or.inr h3)
    | cons r rest ih =>
      intro m hsub hnd hmk hcov hinv kv hkv
      simp only [List.foldl_cons] at hkv
      have hrsr : r ∈ sr := hsub r (List.mem_cons_self _ _)
      simp only [List.map_cons, List.nodup_cons] at hnd
      have hsub2 : ∀ x ∈ rest, x ∈ sr := fun x hx =>
        hsub x (List.mem_cons_of_mem _ hx)
      cases hlk : mapLookup m r.chunkId with
      | some ex =>
        rw [hlk] at hkv
        have hexm : (r.chunkId, ex) ∈ m := mapLookup_mem hlk
        have hexk : ex ∈ kr ∧ ex.chunkId = r.chunkId := by
          rcases hinv _ hexm with ⟨rk, hrk, hkvr, _⟩ | ⟨_, hnot⟩
          · have h1 : r.chunkId = rk.chunkId := congrArg Prod.fst hkvr
            have h2 : ex = rk := congrArg Prod.snd hkvr
            exact ⟨h2 ▸ hrk, by rw [h2, ← h1]⟩
          · exact absurd (by simp) hnot
        refine ih _ hsub2 hnd.2 (nodup_keys_mapSet hmk)
          (fun rk hrk => keys_subset_mapSet _ _ _ _ (hcov rk hrk)) ?_ kv hkv
        intro kv2 hkv2
        rcases mem_mapSet_nodup hmk kv2 hkv2 with ⟨hold, hne⟩ | hnew
        · rcases hinv kv2 hold with ⟨rk, hrk, hkvr, hd⟩ | ⟨h23, hnot⟩
          · left
            refine ⟨rk, hrk, hkvr, ?_⟩
            rcases hd with hd | hd
            · exact Or.inl hd
            · right
              simp only [List.map_cons, List.mem_cons] at hd
              rcases hd with hd | hd
              · exact absurd hd hne
              · exact hd
          · right
            refine ⟨h23, ?_⟩
            intro hc
            exact hnot (List.mem_cons_of_mem _ hc)
        · right
          refine ⟨Or.inr ⟨ex, hexk.1, r, hrsr, hexk.2, ?_⟩, ?_⟩
          · rw [hnew]
          · rw [hnew]
            exact hnd.1
      | none =>
        rw [hlk] at hkv
        have hkey : r.chunkId ∉ m.map Prod.fst := mapLookup_none_iff.mp hlk
        have hnkr : r.chunkId ∉ kr.map ScoredItem.chunkId := by
          intro hc
          rcases List.mem_map.mp hc with ⟨rk, hrk, hid⟩
          exact hkey (hid ▸ hcov rk hrk)
        refine ih _ hsub2 hnd.2 (nodup_keys_mapSet hmk)
          (fun rk hrk => keys_subset_mapSet _ _ _ _ (hcov rk hrk)) ?_ kv hkv
        intro kv2 hkv2
        rcases mem_mapSet_nodup hmk kv2 hkv2 with ⟨hold, hne⟩ | hnew
        · rcases hinv kv2 hold with ⟨rk, hrk, hkvr, hd⟩ | ⟨h23, hnot⟩
          · left
            refine ⟨rk, hrk, hkvr, ?_⟩
            rcases hd with hd | hd
            · exact Or.inl hd
            · right
              simp only [List.map_cons, List.mem_cons] at hd
              rcases hd with hd | hd
              · exact absurd hd hne
              · exact hd
          · right
            refine ⟨h23, ?_⟩
            intro hc
            exact hnot (List.mem_cons_of_mem _ hc)
        · right
          refine ⟨Or.inl ⟨r, hrsr, ?_, hnkr⟩, ?_⟩
          · rw [hnew]
          · rw [hnew]
            exact hnd.1
  intro v hv
  unfold hybridMerge at hv
  rcases List.mem_map.mp hv with ⟨kv, hkv, rfl⟩
  have hm1 : kr.foldl (fun m r => mapSet m r.chunkId r) ([] : MergeMap) =
      kr.map (fun r => (r.chunkId, r)) := by
    rw [foldl_mapSet_append kr [] (by simp) hkn]
    simp
  rw [hm1] at hkv
  have hkeys : ((kr.map (fun r => (r.chunkId, r))).map Prod.fst) =
      kr.map ScoredItem.chunkId := by
    rw [List.map_map]
    rfl
  have hstep := step sr (kr.map (fun r => (r.chunkId, r)))
    (fun x hx => hx) hsn (by rw [hkeys]; exact hkn)
    (by
      intro rk hrk
      rw [hkeys]
      exact List.mem_map_of_mem _ hrk)
    (by
      intro kv2 hkv2
      rcases List.mem_map.mp hkv2 with ⟨rk, hrk, hkvr⟩
      left
      exact ⟨rk, hrk, hkvr.symm, (Classical.em _).symm⟩)
    kv hkv
  rcases hstep with ⟨r, hrk, hkvr, hnot⟩ | ⟨r, hrs, hkvr, hnot⟩ |
      ⟨rk, hrk, rs, hrs, hid, hkvr⟩
  · exact Or.inl ⟨r, hrk, congrArg Prod.snd hkvr, by
      have := congrArg Prod.fst hkvr
      simp only at this
      rw [← this]
      exact hnot⟩
  · exact Or.inr (Or.inl ⟨r, hrs, congrArg Prod.snd hkvr, hnot⟩)
  · exact Or.inr (Or.inr ⟨rk, hrk, rs, hrs, hid, congrArg Prod.snd hkvr⟩)

/-! ### Run-model lemmas -/

/-- The cadence the claim describes: stats snapshots only at the run-start
and run-end transitions, or from the file loop when it is the first file
or a multiple of 50. -/
def claimCadence : Msg → Bool
  | .stats tr _ _ p f _ _ =>
    match tr with
    | .queued => true
    | .final => true
    | .fileLoop _ => decide (p + f = 1) || decide ((p + f) % 50 = 0)
    | .batch => false
  | _ => true

/-- The cadence the code actually implements: additionally, a snapshot
after every successfully embedded batch, and after every failed file. -/
def codeCadence : Msg → Bool
  | .stats tr _ _ p f _ _ =>
    match tr with
    | .fileLoop s => decide (p + f = 1) || decide ((p + f) % 50 = 0) || !s
    | _ => true
  | _ => true

theorem sendUpdate_log (tr : Trigger) (st : WState) :
    (sendUpdate tr st).log = st.log ++ [Msg.stats tr (stateName st)
      st.filesQueued st.filesProcessed st.filesFailed st.chunksGenerated
      st.chunksEmbedded] := rfl

theorem codeCadence_sendUpdate (tr : Trigger) (st : WState)
    (h : st.log.all codeCadence = true)
    (htr : tr = .queued ∨ tr = .batch ∨ tr = .final ∨
      (∃ s, tr = .fileLoop s ∧
        (st.filesProcessed + st.filesFailed = 1 ∨
         (st.filesProcessed + st.filesFailed) % 50 = 0 ∨ s = false))) :
    (sendUpdate tr st).log.all codeCadence = true := by
  rw [sendUpdate_log, List.all_append, h]
  simp only [Bool.true_and, List.all_cons, List.all_nil, Bool.and_true]
  rcases htr with rfl | rfl | rfl | ⟨s, rfl, hc⟩
  · rfl
  · rfl
  · rfl
  · simp only [codeCadence]
    rcases hc with hc | hc | hc
    · simp [hc]
    · simp [hc]
    · simp [hc]

theorem codeCadence_processPending (embedFn : String → List ℚ) (st : WState)
    (h : st.log.all codeCadence = true) :
    (processPendingEmbeddings embedFn st).log.all codeCadence = true := by
  unfold processPendingEmbeddings
  split
  · exact h
  · split
    · exact h
    · exact codeCadence_sendUpdate _ _ h (Or.inr (Or.inl rfl))


/-! ### Run-model lemmas (cadence, frames, invariants) -/

theorem codeCadence_processFileW (embedFn : String → List ℚ) (f : FileInput)
    (st : WState) (h : st.log.all codeCadence = true) :
    (processFileW embedFn f st).1.log.all codeCadence = true := by
  unfold processFileW
  dsimp only
  split
  · exact h
  · split <;> split
    all_goals first
      | exact h
      | (split
         · exact codeCadence_processPending _ _ h
         · exact h)

theorem processPending_running (embedFn : String → List ℚ) (st : WState) :
    (processPendingEmbeddings embedFn st).running = st.running := by
  unfold processPendingEmbeddings sendUpdate
  split
  · rfl
  · split <;> rfl

theorem processPending_paused (embedFn : String → List ℚ) (st : WState) :
    (processPendingEmbeddings embedFn st).paused = st.paused := by
  unfold processPendingEmbeddings sendUpdate
  split
  · rfl
  · split <;> rfl

theorem processPending_filesQueued (embedFn : String → List ℚ) (st : WState) :
    (processPendingEmbeddings embedFn st).filesQueued = st.filesQueued := by
  unfold processPendingEmbeddings sendUpdate
  split
  · rfl
  · split <;> rfl

theorem processPending_filesProcessed (embedFn : String → List ℚ) (st : WState) :
    (processPendingEmbeddings embedFn st).filesProcessed = st.filesProcessed := by
  unfold processPendingEmbeddings sendUpdate
  split
  · rfl
  · split <;> rfl

theorem processPending_filesFailed (embedFn : String → List ℚ) (st : WState) :
    (processPendingEmbeddings embedFn st).filesFailed = st.filesFailed := by
  unfold processPendingEmbeddings sendUpdate
  split
  · rfl
  · split <;> rfl

theorem processPending_chunksGenerated (embedFn : String → List ℚ) (st : WState) :
    (processPendingEmbeddings embedFn st).chunksGenerated = st.chunksGenerated := by
  unfold processPendingEmbeddings sendUpdate
  split
  · rfl
  · split <;> rfl

theorem processPending_enabled (embedFn : String → List ℚ) (st : WState) :
    (processPendingEmbeddings embedFn st).embeddingEnabled = st.embeddingEnabled := by
  unfold processPendingEmbeddings sendUpdate
  split
  · rfl
  · split <;> rfl

theorem processPending_snapshotSaved (embedFn : String → List ℚ) (st : WState) :
    (processPendingEmbeddings embedFn st).snapshotSaved = st.snapshotSaved := by
  unfold processPendingEmbeddings sendUpdate
  split
  · rfl
  · split <;> rfl

theorem processPending_disabled (embedFn : String → List ℚ) (st : WState)
    (h : st.embeddingEnabled = false) :
    (processPendingEmbeddings embedFn st).chunksEmbedded = st.chunksEmbedded ∧
    (processPendingEmbeddings embedFn st).store = st.store := by
  unfold processPendingEmbeddings
  split
  · exact ⟨rfl, rfl⟩
  · split
    · exact ⟨rfl, rfl⟩
    · simp_all

theorem processFileW_running (embedFn : String → List ℚ) (f : FileInput)
    (st : WState) : (processFileW embedFn f st).1.running = st.running := by
  unfold processFileW
  dsimp only
  split
  · rfl
  · split <;> split
    all_goals first
      | rfl
      | (split
         · rw [processPending_running]
         · rfl)

theorem processFileW_paused (embedFn : String → List ℚ) (f : FileInput)
    (st : WState) : (processFileW embedFn f st).1.paused = st.paused := by
  unfold processFileW
  dsimp only
  split
  · rfl
  · split <;> split
    all_goals first
      | rfl
      | (split
         · rw [processPending_paused]
         · rfl)

theorem processFileW_filesQueued (embedFn : String → List ℚ) (f : FileInput)
    (st : WState) : (processFileW embedFn f st).1.filesQueued = st.filesQueued := by
  unfold processFileW
  dsimp only
  split
  · rfl
  · split <;> split
    all_goals first
      | rfl
      | (split
         · rw [processPending_filesQueued]
         · rfl)

theorem processFileW_enabled (embedFn : String → List ℚ) (f : FileInput)
    (st : WState) :
    (processFileW embedFn f st).1.embeddingEnabled = st.embeddingEnabled := by
  unfold processFileW
  dsimp only
  split
  · rfl
  · split <;> split
    all_goals first
      | rfl
      | (split
         · rw [processPending_enabled]
         · rfl)

theorem processFileW_snapshotSaved (embedFn : String → List ℚ) (f : FileInput)
    (st : WState) :
    (processFileW embedFn f st).1.snapshotSaved = st.snapshotSaved := by
  unfold processFileW
  dsimp only
  split
  · rfl
  · split <;> split
    all_goals first
      | rfl
      | (split
         · rw [processPending_snapshotSaved]
         · rfl)

theorem processFileW_after (embedFn : String → List ℚ) (f : FileInput)
    (st : WState) :
    (processFileW embedFn f st).1.filesProcessed +
      (processFileW embedFn f st).1.filesFailed
      = st.filesProcessed + st.filesFailed + 1 := by
  unfold processFileW
  dsimp only
  split
  · dsimp only; omega
  · split <;> split
    all_goals first
      | (dsimp only; omega)
      | (split
         · rw [processPending_filesProcessed, processPending_filesFailed]
           dsimp only
           omega
         · dsimp only; omega)

theorem processFileW_success (embedFn : String → List ℚ) (f : FileInput)
    (st : WState) : (processFileW embedFn f st).2 = f.ok := by
  unfold processFileW
  dsimp only
  split
  · rename_i h
    simp only [Bool.not_eq_true] at h
    exact h.symm
  · rename_i h
    have h2 : f.ok = true := by revert h; cases f.ok <;> simp
    split <;> split
    all_goals exact h2.symm

theorem processFileW_processed_ok (embedFn : String → List ℚ) (f : FileInput)
    (st : WState) (hok : f.ok = true) :
    (processFileW embedFn f st).1.filesProcessed = st.filesProcessed + 1 ∧
    (processFileW embedFn f st).1.filesFailed = st.filesFailed := by
  unfold processFileW
  dsimp only
  split
  · simp_all
  · split <;> split
    all_goals first
      | exact ⟨rfl, rfl⟩
      | (split
         · rw [processPending_filesProcessed, processPending_filesFailed]
           exact ⟨rfl, rfl⟩
         · exact ⟨rfl, rfl⟩)

theorem processFileW_disabled (embedFn : String → List ℚ) (f : FileInput)
    (st : WState) (h : st.embeddingEnabled = false) :
    (processFileW embedFn f st).1.chunksEmbedded = st.chunksEmbedded ∧
    (processFileW embedFn f st).1.store = st.store := by
  unfold processFileW
  dsimp only
  split
  · exact ⟨rfl, rfl⟩
  · split <;> split
    all_goals first
      | exact ⟨rfl, rfl⟩
      | (split
         · exact processPending_disabled _ _ (by simpa using h)
         · exact ⟨rfl, rfl⟩)

/-- The loop bodies only ever append stats and stopped messages, so any
message-level predicate holding of those is preserved. -/
theorem log_all_pres_processPending (P : Msg → Bool)
    (hstats : ∀ tr s q p f g e, P (.stats tr s q p f g e) = true)
    (embedFn : String → List ℚ) (st : WState)
    (h : st.log.all P = true) :
    (processPendingEmbeddings embedFn st).log.all P = true := by
  unfold processPendingEmbeddings sendUpdate
  split
  · exact h
  · split
    · exact h
    · simp [List.all_append, h, hstats]

theorem log_all_pres_processFileW (P : Msg → Bool)
    (hstats : ∀ tr s q p f g e, P (.stats tr s q p f g e) = true)
    (embedFn : String → List ℚ) (f : FileInput) (st : WState)
    (h : st.log.all P = true) :
    (processFileW embedFn f st).1.log.all P = true := by
  unfold processFileW
  dsimp only
  split
  · exact h
  · split <;> split
    all_goals first
      | exact h
      | (split
         · exact log_all_pres_processPending P hstats _ _ h
         · exact h)

theorem log_all_pres_sendUpdate (P : Msg → Bool)
    (hstats : ∀ tr s q p f g e, P (.stats tr s q p f g e) = true)
    (tr : Trigger) (st : WState) (h : st.log.all P = true) :
    (sendUpdate tr st).log.all P = true := by
  rw [sendUpdate_log]
  simp [List.all_append, h, hstats]

theorem log_all_pres_runLoop (P : Msg → Bool)
    (hstats : ∀ tr s q p f g e, P (.stats tr s q p f g e) = true)
    (hstop : P .stopped = true)
    (embedFn : String → List ℚ) (stopAt : Option Nat)
    (files : List FileInput) :
    ∀ (i : Nat) (st : WState), st.log.all P = true →
      (runLoop embedFn stopAt files i st).log.all P = true := by
  induction files with
  | nil => intro i st h; exact h
  | cons f rest ih =>
    intro i st h
    rw [runLoop]
    dsimp only
    split
    · -- the stop signal is delivered before this file
      split
      · simp [List.all_append, h, hstop]
      · rename_i hr
        exact absurd (by simp) hr
    · -- no stop here
      split
      · exact h
      · apply ih
        split
        · exact log_all_pres_sendUpdate P hstats _ _
            (log_all_pres_processFileW P hstats _ _ _ h)
        · exact log_all_pres_processFileW P hstats _ _ _ h

theorem log_all_pres_drainBuffer (P : Msg → Bool)
    (hstats : ∀ tr s q p f g e, P (.stats tr s q p f g e) = true)
    (embedFn : String → List ℚ) :
    ∀ (fuel : Nat) (st : WState), st.log.all P = true →
      (drainBuffer embedFn fuel st).log.all P = true := by
  intro fuel
  induction fuel with
  | zero => intro st h; exact h
  | succ fuel ih =>
    intro st h
    rw [drainBuffer]
    split
    · exact h
    · exact ih _ (log_all_pres_processPending P hstats _ _ h)

theorem codeCadence_runLoop (embedFn : String → List ℚ)
    (stopAt : Option Nat) (files : List FileInput) :
    ∀ (i : Nat) (st : WState), st.log.all codeCadence = true →
      (runLoop embedFn stopAt files i st).log.all codeCadence = true := by
  induction files with
  | nil => intro i st h; exact h
  | cons f rest ih =>
    intro i st h
    rw [runLoop]
    dsimp only
    split
    · split
      · simp only [List.all_append, h, Bool.true_and, List.all_cons,
          List.all_nil, Bool.and_true]
        rfl
      · rename_i hr
        exact absurd (by simp) hr
    · split
      · exact h
      · apply ih
        split
        · rename_i hguard
          refine codeCadence_sendUpdate _ _
            (codeCadence_processFileW _ _ _ h) ?_
          right; right; right
          refine ⟨_, rfl, ?_⟩
          rcases hguard with hg | hg | hg
          · exact Or.inl hg
          · exact Or.inr (Or.inl hg)
          · exact Or.inr (Or.inr hg)
        · exact codeCadence_processFileW _ _ _ h

theorem codeCadence_drainBuffer (embedFn : String → List ℚ) :
    ∀ (fuel : Nat) (st : WState), st.log.all codeCadence = true →
      (drainBuffer embedFn fuel st).log.all codeCadence = true := by
  intro fuel
  induction fuel with
  | zero => intro st h; exact h
  | succ fuel ih =>
    intro st h
    rw [drainBuffer]
    split
    · exact h
    · exact ih _ (codeCadence_processPending _ _ h)

/-- Claim C9 (amended): every stats snapshot the run pushes obeys the
cadence the code implements — it is the run-start or final update, a
post-batch update (one after every embedded batch), or a file-loop update
at the first file, at a multiple of 50, or for a failed file.  This is
strictly weaker than the spec's cadence (only state transitions, the first
file and multiples of 50), which the run below refutes. -/
theorem runIndexing_codeCadence (files : List FileInput) (embedInit : Bool)
    (embedFn : String → List ℚ) (stopAt : Option Nat) :
    (runIndexing files embedInit embedFn stopAt).log.all codeCadence
      = true := by
  unfold runIndexing
  dsimp only
  have h2 : (sendUpdate .queued (startState embedInit files.length)).log.all
      codeCadence = true :=
    codeCadence_sendUpdate .queued _ (by cases embedInit <;> rfl) (Or.inl rfl)
  have h3 := codeCadence_runLoop embedFn stopAt files 0 _ h2
  have h4 := codeCadence_drainBuffer embedFn
    (runLoop embedFn stopAt files 0
      (sendUpdate .queued (startState embedInit files.length))).buffer.length _ h3
  apply codeCadence_sendUpdate _ _ ?_ (Or.inr (Or.inr (Or.inl rfl)))
  split
  · split
    · rw [List.all_append]
      exact (Bool.and_eq_true _ _).mpr ⟨h4, rfl⟩
    · exact h4
  · split
    · rw [List.all_append]
      exact (Bool.and_eq_true _ _).mpr ⟨h4, rfl⟩
    · exact h4

theorem sendUpdate_fields (tr : Trigger) (st : WState) :
    (sendUpdate tr st).running = st.running ∧
    (sendUpdate tr st).paused = st.paused ∧
    (sendUpdate tr st).filesQueued = st.filesQueued ∧
    (sendUpdate tr st).filesProcessed = st.filesProcessed ∧
    (sendUpdate tr st).filesFailed = st.filesFailed ∧
    (sendUpdate tr st).chunksGenerated = st.chunksGenerated ∧
    (sendUpdate tr st).chunksEmbedded = st.chunksEmbedded ∧
    (sendUpdate tr st).embeddingEnabled = st.embeddingEnabled ∧
    (sendUpdate tr st).buffer = st.buffer ∧
    (sendUpdate tr st).store = st.store ∧
    (sendUpdate tr st).snapshotSaved = st.snapshotSaved :=
  ⟨rfl, rfl, rfl, rfl, rfl, rfl, rfl, rfl, rfl, rfl, rfl⟩

/-- With embeddings disabled and every file readable, the file loop (with no
stop signal) processes every file, fails none, embeds nothing, and stores
nothing. -/
theorem runLoop_none_disabled (embedFn : String → List ℚ)
    (files : List FileInput) :
    ∀ (i : Nat) (st : WState), st.running = true →
      st.embeddingEnabled = false → (∀ f ∈ files, f.ok = true) →
      (runLoop embedFn none files i st).filesProcessed
          = st.filesProcessed + files.length ∧
      (runLoop embedFn none files i st).filesFailed = st.filesFailed ∧
      (runLoop embedFn none files i st).chunksEmbedded = st.chunksEmbedded ∧
      (runLoop embedFn none files i st).store = st.store ∧
      (runLoop embedFn none files i st).running = true ∧
      (runLoop embedFn none files i st).paused = st.paused ∧
      (runLoop embedFn none files i st).embeddingEnabled = false ∧
      (runLoop embedFn none files i st).filesQueued = st.filesQueued := by
  induction files with
  | nil =>
    intro i st h1 h2 _
    rw [runLoop]
    exact ⟨by simp, rfl, rfl, rfl, h1, rfl, h2, rfl⟩
  | cons f rest ih =>
    intro i st hrun hdis hok
    rw [runLoop]
    dsimp only
    rw [if_neg (by simp : ¬ (none : Option Nat) = some i)]
    rw [if_neg (by simp [hrun] : ¬ (¬ st.running = true))]
    have hpp := processFileW_processed_ok embedFn f st
      (hok f (List.mem_cons_self _ _))
    have hdis2 := processFileW_disabled embedFn f st hdis
    have hr2 := processFileW_running embedFn f st
    have hp2 := processFileW_paused embedFn f st
    have he2 := processFileW_enabled embedFn f st
    have hq2 := processFileW_filesQueued embedFn f st
    have hok2 : ∀ g ∈ rest, g.ok = true := fun g hg =>
      hok g (List.mem_cons_of_mem _ hg)
    split
    · have := ih (i + 1) (sendUpdate (.fileLoop (processFileW embedFn f st).2)
        (processFileW embedFn f st).1)
        (by rw [(sendUpdate_fields _ _).1, hr2]; exact hrun)
        (by rw [(sendUpdate_fields _ _).2.2.2.2.2.2.2.1, he2]; exact hdis)
        hok2
      rcases this with ⟨a1, a2, a3, a4, a5, a6, a7, a8⟩
      refine ⟨?_, ?_, ?_, ?_, a5, ?_, a7, ?_⟩
      · rw [a1, (sendUpdate_fields _ _).2.2.2.1, hpp.1]
        simp only [List.length_cons]
        omega
      · rw [a2, (sendUpdate_fields _ _).2.2.2.2.1, hpp.2]
      · rw [a3, (sendUpdate_fields _ _).2.2.2.2.2.2.1, hdis2.1]
      · rw [a4, (sendUpdate_fields _ _).2.2.2.2.2.2.2.2.2.1, hdis2.2]
      · rw [a6, (sendUpdate_fields _ _).2.1, hp2]
      · rw [a8, (sendUpdate_fields _ _).2.2.1, hq2]
    · have := ih (i + 1) (processFileW embedFn f st).1
        (by rw [hr2]; exact hrun)
        (by rw [he2]; exact hdis)
        hok2
      rcases this with ⟨a1, a2, a3, a4, a5, a6, a7, a8⟩
      refine ⟨?_, ?_, ?_, ?_, a5, ?_, a7, ?_⟩
      · rw [a1, hpp.1]
        simp only [List.length_cons]
        omega
      · rw [a2, hpp.2]
      · rw [a3, hdis2.1]
      · rw [a4, hdis2.2]
      · rw [a6, hp2]
      · rw [a8, hq2]

/-- A stop signal delivered before file `k` makes the loop process exactly
the files before index `k` and exit with `running = false` (the `stopped`
reply is logged). -/
theorem runLoop_stop (embedFn : String → List ℚ) (k : Nat)
    (files : List FileInput) :
    ∀ (i : Nat) (st : WState), st.running = true → i ≤ k →
      k - i < files.length →
      (runLoop embedFn (some k) files i st).filesProcessed +
          (runLoop embedFn (some k) files i st).filesFailed
        = st.filesProcessed + st.filesFailed + (k - i) ∧
      (runLoop embedFn (some k) files i st).running = false ∧
      (runLoop embedFn (some k) files i st).embeddingEnabled
        = st.embeddingEnabled ∧
      Msg.stopped ∈ (runLoop embedFn (some k) files i st).log := by
  induction files with
  | nil => intro i st _ _ hlen; simp at hlen
  | cons f rest ih =>
    intro i st hrun hik hlen
    rw [runLoop]
    dsimp only
    by_cases hik2 : k = i
    · subst hik2
      rw [if_pos rfl]
      rw [if_pos (fun hc => Bool.noConfusion hc)]
      refine ⟨by simp, rfl, rfl, by simp⟩
    · have hiklt : i < k := by omega
      rw [if_neg (fun hc => hik2 (Option.some.inj hc))]
      rw [if_neg (by simp [hrun] : ¬ (¬ st.running = true))]
      have hr2 := processFileW_running embedFn f st
      have he2 := processFileW_enabled embedFn f st
      have ha2 := processFileW_after embedFn f st
      have hlen2 : k - (i + 1) < rest.length := by
        simp only [List.length_cons] at hlen
        omega
      split
      · have := ih (i + 1) (sendUpdate (.fileLoop (processFileW embedFn f st).2)
          (processFileW embedFn f st).1)
          (by rw [(sendUpdate_fields _ _).1, hr2]; exact hrun)
          (by omega) hlen2
        rcases this with ⟨a1, a2, a3, a4⟩
        refine ⟨?_, a2, ?_, a4⟩
        · rw [a1, (sendUpdate_fields _ _).2.2.2.1,
            (sendUpdate_fields _ _).2.2.2.2.1]
          omega
        · rw [a3, (sendUpdate_fields _ _).2.2.2.2.2.2.2.1, he2]
      · have := ih (i + 1) (processFileW embedFn f st).1
          (by rw [hr2]; exact hrun) (by omega) hlen2
        rcases this with ⟨a1, a2, a3, a4⟩
        refine ⟨?_, a2, ?_, a4⟩
        · rw [a1]
          omega
        · rw [a3, he2]

/-- Invariant of an embeddings-enabled run: every generated chunk is either
already embedded (and stored) or still sitting in the buffer. -/
def EmbInv (st : WState) : Prop :=
  st.chunksEmbedded + st.buffer.length = st.chunksGenerated ∧
  st.store.length = st.chunksEmbedded

theorem embInv_processPending (embedFn : String → List ℚ) (st : WState)
    (hen : st.embeddingEnabled = true) (h : EmbInv st) :
    EmbInv (processPendingEmbeddings embedFn st) := by
  unfold processPendingEmbeddings sendUpdate
  rw [if_neg (by simp [hen] : ¬ (¬ st.embeddingEnabled = true))]
  split
  · exact h
  · dsimp only
    rcases h with ⟨h1, h2⟩
    constructor
    · simp only [List.length_drop, List.length_take]
      omega
    · simp only [List.length_append, List.length_map, List.length_take]
      omega

theorem embInv_processFileW (embedFn : String → List ℚ) (f : FileInput)
    (st : WState) (hen : st.embeddingEnabled = true) (h : EmbInv st) :
    EmbInv (processFileW embedFn f st).1 := by
  unfold processFileW
  dsimp only
  rcases h with ⟨h1, h2⟩
  split
  · exact ⟨h1, h2⟩
  · split <;> split
    all_goals first
      | exact ⟨h1, h2⟩
      | (split
         · refine embInv_processPending embedFn _ (by simpa using hen) ?_
           constructor
           · simp only [List.length_append, List.length_map, List.enum_length]
             omega
           · exact h2
         · constructor
           · simp only [List.length_append, List.length_map, List.enum_length]
             omega
           · exact h2)

theorem embInv_runLoop (embedFn : String → List ℚ) (stopAt : Option Nat)
    (files : List FileInput) :
    ∀ (i : Nat) (st : WState), st.embeddingEnabled = true → EmbInv st →
      EmbInv (runLoop embedFn stopAt files i st) ∧
      (runLoop embedFn stopAt files i st).embeddingEnabled = true := by
  induction files with
  | nil => intro i st hen h; exact ⟨h, hen⟩
  | cons f rest ih =>
    intro i st hen h
    rw [runLoop]
    dsimp only
    split
    · split
      · exact ⟨h, hen⟩
      · rename_i hr
        exact absurd (by simp) hr
    · split
      · exact ⟨h, hen⟩
      · apply ih
        · split
          · rw [(sendUpdate_fields _ _).2.2.2.2.2.2.2.1,
              processFileW_enabled]
            exact hen
          · rw [processFileW_enabled]
            exact hen
        · split
          · have h2 := embInv_processFileW embedFn f st hen h
            rcases h2 with ⟨h2a, h2b⟩
            refine ⟨?_, ?_⟩
            · rw [(sendUpdate_fields _ _).2.2.2.2.2.2.1,
                (sendUpdate_fields _ _).2.2.2.2.2.2.2.2.1]
              exact h2a
            · rw [(sendUpdate_fields _ _).2.2.2.2.2.2.2.2.2.1]
              exact h2b
          · exact embInv_processFileW embedFn f st hen h

theorem drainBuffer_empty (embedFn : String → List ℚ) :
    ∀ (fuel : Nat) (st : WState), st.buffer.length ≤ fuel →
      (drainBuffer embedFn fuel st).buffer = [] := by
  intro fuel
  induction fuel with
  | zero =>
    intro st h
    rw [drainBuffer]
    exact List.eq_nil_of_length_eq_zero (by omega)
  | succ fuel ih =>
    intro st h
    rw [drainBuffer]
    split
    · rename_i he
      exact List.isEmpty_iff.mp (by simpa using he)
    · rename_i he
      apply ih
      unfold processPendingEmbeddings sendUpdate
      split
      · simp_all
      · split
        · simp
        · dsimp only
          simp only [List.length_drop]
          have hne : st.buffer.length ≠ 0 := by
            intro hc
            exact (by simpa using he : ¬ st.buffer.isEmpty = true)
              (by simpa using List.eq_nil_of_length_eq_zero hc)
          omega

theorem embInv_drainBuffer (embedFn : String → List ℚ) :
    ∀ (fuel : Nat) (st : WState), st.embeddingEnabled = true → EmbInv st →
      EmbInv (drainBuffer embedFn fuel st) := by
  intro fuel
  induction fuel with
  | zero => intro st _ h; exact h
  | succ fuel ih =>
    intro st hen h
    rw [drainBuffer]
    split
    · exact h
    · exact ih _ (by rw [processPending_enabled]; exact hen)
        (embInv_processPending embedFn st hen h)

theorem drainBuffer_fields (embedFn : String → List ℚ) :
    ∀ (fuel : Nat) (st : WState),
      (drainBuffer embedFn fuel st).running = st.running ∧
      (drainBuffer embedFn fuel st).paused = st.paused ∧
      (drainBuffer embedFn fuel st).filesQueued = st.filesQueued ∧
      (drainBuffer embedFn fuel st).filesProcessed = st.filesProcessed ∧
      (drainBuffer embedFn fuel st).filesFailed = st.filesFailed ∧
      (drainBuffer embedFn fuel st).chunksGenerated = st.chunksGenerated ∧
      (drainBuffer embedFn fuel st).embeddingEnabled = st.embeddingEnabled ∧
      (drainBuffer embedFn fuel st).snapshotSaved = st.snapshotSaved := by
  intro fuel
  induction fuel with
  | zero => intro st; exact ⟨rfl, rfl, rfl, rfl, rfl, rfl, rfl, rfl⟩
  | succ fuel ih =>
    intro st
    rw [drainBuffer]
    split
    · exact ⟨rfl, rfl, rfl, rfl, rfl, rfl, rfl, rfl⟩
    · rcases ih (processPendingEmbeddings embedFn st) with
        ⟨a1, a2, a3, a4, a5, a6, a7, a8⟩
      exact ⟨a1.trans (processPending_running _ _),
        a2.trans (processPending_paused _ _),
        a3.trans (processPending_filesQueued _ _),
        a4.trans (processPending_filesProcessed _ _),
        a5.trans (processPending_filesFailed _ _),
        a6.trans (processPending_chunksGenerated _ _),
        a7.trans (processPending_enabled _ _),
        a8.trans (processPending_snapshotSaved _ _)⟩

theorem drainBuffer_disabled (embedFn : String → List ℚ) :
    ∀ (fuel : Nat) (st : WState), st.embeddingEnabled = false →
      (drainBuffer embedFn fuel st).chunksEmbedded = st.chunksEmbedded ∧
      (drainBuffer embedFn fuel st).store = st.store := by
  intro fuel
  induction fuel with
  | zero => intro st _; exact ⟨rfl, rfl⟩
  | succ fuel ih =>
    intro st hdis
    rw [drainBuffer]
    split
    · exact ⟨rfl, rfl⟩
    · rcases ih (processPendingEmbeddings embedFn st)
        (by rw [processPending_enabled]; exact hdis) with ⟨a1, a2⟩
      rcases processPending_disabled embedFn st hdis with ⟨b1, b2⟩
      exact ⟨a1.trans b1, a2.trans b2⟩

/-- Non-error messages (the run's fatal path is an exception escaping the
main loop, which this model's domain excludes; every caught failure emits a
warning instead). -/
def notError : Msg → Bool
  | .error _ => false
  | _ => true

/-- No run of the model ever emits an `error` message: embedding-service
init failure is downgraded to a warning. -/
theorem runIndexing_notError (files : List FileInput) (embedInit : Bool)
    (embedFn : String → List ℚ) (stopAt : Option Nat) :
    (runIndexing files embedInit embedFn stopAt).log.all notError = true := by
  unfold runIndexing
  dsimp only
  have h2 : (sendUpdate .queued (startState embedInit files.length)).log.all
      notError = true := by cases embedInit <;> rfl
  have h3 := log_all_pres_runLoop notError (fun _ _ _ _ _ _ _ => rfl) rfl
    embedFn stopAt files 0 _ h2
  have h4 := log_all_pres_drainBuffer notError (fun _ _ _ _ _ _ _ => rfl)
    embedFn (runLoop embedFn stopAt files 0
      (sendUpdate .queued (startState embedInit files.length))).buffer.length
    _ h3
  apply log_all_pres_sendUpdate notError (fun _ _ _ _ _ _ _ => rfl)
  split
  · split
    · rw [List.all_append]
      exact (Bool.and_eq_true _ _).mpr ⟨h4, rfl⟩
    · exact h4
  · split
    · rw [List.all_append]
      exact (Bool.and_eq_true _ _).mpr ⟨h4, rfl⟩
    · exact h4

def notComplete : Msg → Bool
  | .complete _ _ _ => false
  | _ => true

theorem stateName_idle (st : WState) (hp : st.paused = false)
    (hr : st.running = false) : stateName st = "idle" := by
  unfold stateName
  rw [hp, hr]
  simp

theorem getLast_append_singleton (l : List Msg) (m : Msg) :
    (l ++ [m]).getLast? = some m := by
  simp

/-- Claim C6: when the embedding service fails to initialise, the run
proceeds in embeddings-disabled mode: every queued file is still processed
(`filesProcessed == filesQueued`), nothing is embedded, the final stats
snapshot reports the `idle` phase, and no error message is emitted. -/
theorem runIndexing_noEmbed (files : List FileInput)
    (embedFn : String → List ℚ) (hok : ∀ f ∈ files, f.ok = true) :
    (runIndexing files false embedFn none).filesQueued = files.length ∧
    (runIndexing files false embedFn none).filesProcessed = files.length ∧
    (runIndexing files false embedFn none).chunksEmbedded = 0 ∧
    (∃ g, (runIndexing files false embedFn none).log.getLast?
        = some (Msg.stats .final "idle" files.length files.length 0 g 0)) ∧
    ∀ t, Msg.error t ∉ (runIndexing files false embedFn none).log := by
  have herr := runIndexing_notError files false embedFn none
  obtain ⟨b1, b2, b3, b4, b5, b6, b7, b8⟩ := runLoop_none_disabled embedFn
    files 0 (sendUpdate .queued (startState false files.length)) rfl rfl hok
  set st3 := runLoop embedFn none files 0
    (sendUpdate .queued (startState false files.length)) with hst3
  obtain ⟨c1, c2, c3, c4, c5, c6, c7, c8⟩ :=
    drainBuffer_fields embedFn st3.buffer.length st3
  obtain ⟨d1, d2⟩ := drainBuffer_disabled embedFn st3.buffer.length st3 b7
  set st4 := drainBuffer embedFn st3.buffer.length st3 with hst4
  have e1 : st4.filesProcessed = files.length := by
    rw [c4, b1]
    show 0 + files.length = files.length
    omega
  have e2 : st4.filesFailed = 0 := by rw [c5, b2]; rfl
  have e3 : st4.chunksEmbedded = 0 := by rw [d1, b3]; rfl
  have e4 : st4.store = [] := by rw [d2, b4]; rfl
  have e5 : st4.running = true := by rw [c1]; exact b5
  have e6 : st4.paused = false := by rw [c2, b6]; rfl
  have e8 : st4.filesQueued = files.length := by rw [c3, b8]; rfl
  have hdone : ∀ t, Msg.error t ∉ (runIndexing files false embedFn none).log := by
    intro t hmem
    have := List.all_eq_true.mp herr _ hmem
    simp [notError] at this
  have hstoreE : st4.store.isEmpty = true := by rw [e4]; rfl
  refine ⟨?_, ?_, ?_, ?_, hdone⟩ <;>
    · unfold runIndexing
      dsimp only
      rw [← hst3, ← hst4]
      rw [if_pos hstoreE]
      rw [if_pos e5]
      first
        | exact e8
        | exact e1
        | exact e3
        | (refine ⟨st4.chunksGenerated, ?_⟩
           rw [sendUpdate_log, getLast_append_singleton]
           have hsn := stateName_idle { st4 with running := false, log := st4.log ++ [Msg.complete st4.filesProcessed st4.filesFailed st4.chunksEmbedded] } e6 rfl
           rw [hsn]
           dsimp only
           rw [e8, e1, e2, e3])

/-- No `complete` event is emitted by a run that was stopped mid-loop. -/
theorem runIndexing_stop_noComplete (files : List FileInput)
    (embedFn : String → List ℚ) (k : Nat) (hk : k < files.length) :
    ∀ p f e, Msg.complete p f e ∉
      (runIndexing files true embedFn (some k)).log := by
  obtain ⟨-, a2, -, -⟩ := runLoop_stop embedFn k files 0
    (sendUpdate .queued (startState true files.length)) rfl (Nat.zero_le k)
    (by omega)
  set st3 := runLoop embedFn (some k) files 0
    (sendUpdate .queued (startState true files.length)) with hst3
  obtain ⟨c1, -, -, -, -, -, -, -⟩ :=
    drainBuffer_fields embedFn st3.buffer.length st3
  set st4 := drainBuffer embedFn st3.buffer.length st3 with hst4
  have e5 : st4.running = false := by rw [c1]; exact a2
  have h2 : (sendUpdate .queued (startState true files.length)).log.all
      notComplete = true := rfl
  have h3 := log_all_pres_runLoop notComplete (fun _ _ _ _ _ _ _ => rfl) rfl
    embedFn (some k) files 0 _ h2
  have h4 := log_all_pres_drainBuffer notComplete (fun _ _ _ _ _ _ _ => rfl)
    embedFn st3.buffer.length _ h3
  rw [← hst3, ← hst4] at h4
  intro p f e hmem
  have hall : (runIndexing files true embedFn (some k)).log.all notComplete
      = true := by
    unfold runIndexing
    dsimp only
    rw [← hst3, ← hst4]
    apply log_all_pres_sendUpdate notComplete (fun _ _ _ _ _ _ _ => rfl)
    split
    · rw [if_neg (by rw [e5]; simp)]
      exact h4
    · rw [if_neg (by simp [e5] : ¬ ({ st4 with snapshotSaved := true } : WState).running = true)]
      exact h4
  have := List.all_eq_true.mp hall _ hmem
  simp [notComplete] at this

/-- Claim C5 (amended): after a `stop`, the loop exits at the stop boundary
(exactly the files before it are counted), the records accumulated so far
are snapshotted when any exist, and no completion event is emitted; but the
pending buffer is fully drained — every generated chunk ends up embedded —
because `runIndexing` runs
`while (embeddingBuffer.length > 0) await processPendingEmbeddings()`
unconditionally after the loop. -/
theorem runIndexing_stop (files : List FileInput)
    (embedFn : String → List ℚ) (k : Nat) (hk : k < files.length) :
    (runIndexing files true embedFn (some k)).filesProcessed +
        (runIndexing files true embedFn (some k)).filesFailed = k ∧
    (runIndexing files true embedFn (some k)).buffer = [] ∧
    (runIndexing files true embedFn (some k)).chunksEmbedded
      = (runIndexing files true embedFn (some k)).chunksGenerated ∧
    ((runIndexing files true embedFn (some k)).store ≠ [] →
      (runIndexing files true embedFn (some k)).snapshotSaved = true) ∧
    (runIndexing files true embedFn (some k)).running = false ∧
    ∀ p f e, Msg.complete p f e ∉
      (runIndexing files true embedFn (some k)).log := by
  have hnc := runIndexing_stop_noComplete files embedFn k hk
  obtain ⟨a1, a2, a3, -⟩ := runLoop_stop embedFn k files 0
    (sendUpdate .queued (startState true files.length)) rfl (Nat.zero_le k)
    (by omega)
  have hinv3 := embInv_runLoop embedFn (some k) files 0
    (sendUpdate .queued (startState true files.length)) rfl ⟨rfl, rfl⟩
  set st3 := runLoop embedFn (some k) files 0
    (sendUpdate .queued (startState true files.length)) with hst3
  obtain ⟨c1, c2, c3, c4, c5, c6, c7, c8⟩ :=
    drainBuffer_fields embedFn st3.buffer.length st3
  have hbuf := drainBuffer_empty embedFn st3.buffer.length st3 le_rfl
  have hinv4 := embInv_drainBuffer embedFn st3.buffer.length st3
    hinv3.2 hinv3.1
  set st4 := drainBuffer embedFn st3.buffer.length st3 with hst4
  have e5 : st4.running = false := by rw [c1]; exact a2
  have ecount : st4.filesProcessed + st4.filesFailed = k := by
    rw [c4, c5, a1]
    show 0 + 0 + (k - 0) = k
    omega
  have eemb : st4.chunksEmbedded = st4.chunksGenerated := by
    rcases hinv4 with ⟨h1, -⟩
    rw [hbuf] at h1
    simpa using h1
  refine ⟨?_, ?_, ?_, ?_, ?_, hnc⟩ <;>
    · unfold runIndexing
      dsimp only
      rw [← hst3, ← hst4]
      split
      · rw [if_neg (by rw [e5]; simp)]
        first
          | exact ecount
          | exact hbuf
          | exact eemb
          | (intro hne; rename_i hemp; exact absurd (List.isEmpty_iff.mp hemp) hne)
          | exact e5
      · rw [if_neg (by simp [e5] : ¬ ({ st4 with snapshotSaved := true } : WState).running = true)]
        first
          | exact ecount
          | exact hbuf
          | exact eemb
          | (intro _; rfl)
          | exact e5

/-! ### The retrieval endpoint: filters, determinism, and the hybrid merge -/


def dropTime (c : ResultChunk) :
    String × String × String × String × String × ℝ × String × List String :=
  (c.chunkId, c.path, c.title, c.section_, c.fileType, c.score, c.text,
    c.highlights)

theorem map_dropTime_invariant (now1 now2 : String) (l : List ScoredItem) :
    (l.map (mkResultChunk now1)).map dropTime
      = (l.map (mkResultChunk now2)).map dropTime := by
  induction l with
  | nil => rfl
  | cons x xs ih =>
    simp only [List.map_cons, ih]
    rfl

/-- Dropping the `modifiedAt` field, `/api/search` is a pure function of its
arguments and the snapshot: the response-construction time is the only
non-deterministic input. -/
theorem searchChunks_time_invariant (snapshot : List IndexItem)
    (qe : Option (List ℚ)) (query mode : String) (tk : Option Nat)
    (ms : Option ℝ) (now1 now2 : String) :
    (searchChunks snapshot qe query mode tk ms now1).map dropTime
      = (searchChunks snapshot qe query mode tk ms now2).map dropTime := by
  unfold searchChunks
  dsimp only
  split
  · rfl
  · apply map_dropTime_invariant

theorem mem_take_sort {r : ScoredItem} (k : Nat) (l : List ScoredItem)
    (h : r ∈ (sortByScoreDesc l).take k) : r ∈ l :=
  mem_sortByScoreDesc.mp (List.take_subset _ _ h)

/-- `topK = 0` is falsy in `body.topK || 20`, so it behaves exactly like an
absent `topK` (the default 20). -/
theorem searchChunks_topK_zero (snapshot : List IndexItem)
    (qe : Option (List ℚ)) (query mode : String) (ms : Option ℝ)
    (now : String) :
    searchChunks snapshot qe query mode (some 0) ms now
      = searchChunks snapshot qe query mode none ms now := rfl

/-- Every returned chunk's score is at least the effective `minScore`:
each mode filters by `score >= minScore` before sorting and truncating,
and the hybrid merge only averages two values that both passed. -/
theorem searchChunks_minScore (snapshot : List IndexItem)
    (qe : Option (List ℚ)) (query mode : String) (tk : Option Nat)
    (ms : Option ℝ) (now : String) :
    ∀ c ∈ searchChunks snapshot qe query mode tk ms now,
      ms.getD (0.3 : ℝ) ≤ c.score := by
  intro c hc
  unfold searchChunks at hc
  dsimp only at hc
  split at hc
  · simp at hc
  · rcases List.mem_map.mp hc with ⟨r, hr, rfl⟩
    show ms.getD (0.3 : ℝ) ≤ r.score
    split at hr
    · -- semantic mode
      split at hr
      · rename_i qe2 _
        unfold semanticSearch at hr
        split at hr
        · simp at hr
        · have := mem_take_sort _ _ hr
          exact of_decide_eq_true ((List.mem_filter.mp this).2)
      · unfold keywordSearch at hr
        have := mem_take_sort _ _ hr
        exact of_decide_eq_true ((List.mem_filter.mp this).2)
    · split at hr
      · -- hybrid mode
        have hv := mem_take_sort _ _ hr
        refine hybridMerge_score_ge _ _ _ ?_ ?_ r hv
        · intro r2 hr2
          unfold keywordSearch at hr2
          have := mem_take_sort _ _ hr2
          exact of_decide_eq_true ((List.mem_filter.mp this).2)
        · intro r2 hr2
          split at hr2
          · rename_i qe2 _
            unfold semanticSearch at hr2
            split at hr2
            · simp at hr2
            · have := mem_take_sort _ _ hr2
              exact of_decide_eq_true ((List.mem_filter.mp this).2)
          · simp at hr2
      · -- keyword mode
        unfold keywordSearch at hr
        have := mem_take_sort _ _ hr
        exact of_decide_eq_true ((List.mem_filter.mp this).2)

theorem keywordSearch_empty_of (snapshot : List IndexItem) (query : String)
    (k : Nat) (ms : ℝ) (hms : 1 < ms) :
    keywordSearch snapshot query k ms = [] := by
  unfold keywordSearch
  have hf : (snapshot.map (fun it =>
      (⟨it, chunkIdOf it, ((keywordScore it.text query : ℚ) : ℝ)⟩ :
        ScoredItem))).filter (fun x => decide (ms ≤ x.score)) = [] := by
    rw [List.filter_eq_nil_iff]
    intro a ha
    rcases List.mem_map.mp ha with ⟨it, _, rfl⟩
    simp only [decide_eq_true_eq]
    intro hc
    have h1 : ((keywordScore it.text query : ℚ) : ℝ) ≤ 1 := by
      exact_mod_cast keywordScore_le_one it.text query
    have hc2 : ms ≤ ((keywordScore it.text query : ℚ) : ℝ) := hc
    linarith
  rw [hf]
  simp [sortByScoreDesc]

theorem semanticSearch_empty_of (snapshot : List IndexItem)
    (qe : Option (List ℚ)) (k : Nat) (ms : ℝ) (hms : 1 < ms) :
    semanticSearch snapshot qe k ms = [] := by
  unfold semanticSearch
  split
  · rfl
  · rename_i qe2
    have hf : (snapshot.map (fun it =>
        (⟨it, chunkIdOf it, cosineSimilarity (some qe2) it.embedding⟩ :
          ScoredItem))).filter (fun x => decide (ms ≤ x.score)) = [] := by
      rw [List.filter_eq_nil_iff]
      intro a ha
      rcases List.mem_map.mp ha with ⟨it, _, rfl⟩
      simp only [decide_eq_true_eq]
      intro hc
      have h1 := cosineSimilarity_le_one (some qe2) it.embedding
      have hc2 : ms ≤ cosineSimilarity (some qe2) it.embedding := hc
      linarith
    rw [hf]
    simp [sortByScoreDesc]

/-- With `minScore` above every attainable score (keyword scores and cosine
similarities are at most 1), every mode returns the empty list. -/
theorem searchChunks_high_minScore (snapshot : List IndexItem)
    (qe : Option (List ℚ)) (query mode : String) (tk : Option Nat)
    (now : String) (ms : ℝ) (hms : 1 < ms) :
    searchChunks snapshot qe query mode tk (some ms) now = [] := by
  unfold searchChunks
  dsimp only [Option.getD]
  split
  · rfl
  · have hk := keywordSearch_empty_of snapshot query (resolveTopK tk) ms hms
    have hs := semanticSearch_empty_of snapshot qe (resolveTopK tk) ms hms
    split
    · split
      · rw [hs]
        rfl
      · rw [hk]
        rfl
    · split
      · rw [hk]
        split
        · rw [hs]
          simp [hybridMerge, sortByScoreDesc]
        · simp [hybridMerge, sortByScoreDesc]
      · rw [hk]
        rfl

theorem nodup_ids_take_sort (l : List ScoredItem) (p : ScoredItem → Bool)
    (k : Nat) (h : (l.map ScoredItem.chunkId).Nodup) :
    (((sortByScoreDesc (l.filter p)).take k).map ScoredItem.chunkId).Nodup := by
  have h1 : ((l.filter p).map ScoredItem.chunkId).Nodup :=
    (List.Sublist.map ScoredItem.chunkId (List.filter_sublist l)).nodup h
  have h2 : ((sortByScoreDesc (l.filter p)).map ScoredItem.chunkId).Nodup :=
    ((sortByScoreDesc_perm (l.filter p)).map ScoredItem.chunkId).nodup_iff.mpr h1
  exact (List.Sublist.map ScoredItem.chunkId
    (List.take_sublist k (sortByScoreDesc (l.filter p)))).nodup h2

theorem nodup_ids_keywordSearch (snapshot : List IndexItem) (query : String)
    (k : Nat) (ms : ℝ) (h : (snapshot.map chunkIdOf).Nodup) :
    ((keywordSearch snapshot query k ms).map ScoredItem.chunkId).Nodup := by
  unfold keywordSearch
  apply nodup_ids_take_sort
  rw [List.map_map]
  exact h

theorem nodup_ids_semanticSearch (snapshot : List IndexItem)
    (qe : Option (List ℚ)) (k : Nat) (ms : ℝ)
    (h : (snapshot.map chunkIdOf).Nodup) :
    ((semanticSearch snapshot qe k ms).map ScoredItem.chunkId).Nodup := by
  unfold semanticSearch
  split
  · exact List.nodup_nil
  · apply nodup_ids_take_sort
    rw [List.map_map]
    exact h

/-- Claim C3 (amended): the endpoint's hybrid branch is a two-stage
retrieve-then-merge, not a single-pass `0.7/0.3` combination: keyword and
semantic lists are retrieved separately (each already filtered by
`minScore` and truncated to `topK`), then merged by chunk id — a chunk on
one list keeps its score, a chunk on both gets the average
`(keyword + semantic) / 2`. -/
theorem searchChunks_hybrid_merge (snapshot : List IndexItem)
    (qe : List ℚ) (query : String) (tk : Option Nat) (ms : Option ℝ)
    (now : String) (hn : ¬ snapshot.length = 0)
    (hnodup : (snapshot.map chunkIdOf).Nodup) :
    searchChunks snapshot (some qe) query "hybrid" tk ms now =
      ((sortByScoreDesc (hybridMerge
          (keywordSearch snapshot query (resolveTopK tk) (ms.getD 0.3))
          (semanticSearch snapshot (some qe) (resolveTopK tk)
            (ms.getD 0.3)))).take (resolveTopK tk)).map (mkResultChunk now) ∧
    ∀ v ∈ hybridMerge
        (keywordSearch snapshot query (resolveTopK tk) (ms.getD 0.3))
        (semanticSearch snapshot (some qe) (resolveTopK tk) (ms.getD 0.3)),
      (∃ r ∈ keywordSearch snapshot query (resolveTopK tk) (ms.getD 0.3),
        v = r ∧ r.chunkId ∉ (semanticSearch snapshot (some qe)
          (resolveTopK tk) (ms.getD 0.3)).map ScoredItem.chunkId) ∨
      (∃ r ∈ semanticSearch snapshot (some qe) (resolveTopK tk) (ms.getD 0.3),
        v = r ∧ r.chunkId ∉ (keywordSearch snapshot query (resolveTopK tk)
          (ms.getD 0.3)).map ScoredItem.chunkId) ∨
      (∃ rk ∈ keywordSearch snapshot query (resolveTopK tk) (ms.getD 0.3),
        ∃ rs ∈ semanticSearch snapshot (some qe) (resolveTopK tk) (ms.getD 0.3),
          rk.chunkId = rs.chunkId ∧
          v = { rs with score := (rk.score + rs.score) / 2 }) := by
  constructor
  · unfold searchChunks
    dsimp only
    rw [if_neg hn]
    rw [if_neg (by decide : ¬ ("hybrid" : String) = "semantic")]
    rw [if_pos rfl]
  · exact hybridMerge_cases _ _
      (nodup_ids_keywordSearch snapshot query (resolveTopK tk) (ms.getD 0.3) hnodup)
      (nodup_ids_semanticSearch snapshot (some qe) (resolveTopK tk) (ms.getD 0.3) hnodup)

theorem kwAlpha : keywordScore "alpha" "alpha" = 1 := by
  have h1 : ((splitWs (lowerL ("alpha" : String).toList)).filter
      (fun t => t.length > 0)).length = 1 := by decide
  have h2 : ((splitWs (lowerL ("alpha" : String).toList)).filter
      (fun t => t.length > 0)).countP
      (fun t => containsSub (lowerL ("alpha" : String).toList) t) = 1 := by decide
  simp only [keywordScore]
  rw [if_neg (by decide)]
  rw [h2, h1]
  norm_num

theorem cos_10_10 : cosineSimilarity (some [1, 0]) (some [1, 0]) = 1 := by
  simp only [cosineSimilarity]
  norm_num [sumsqQ, dotQ]

theorem cos_10_01 : cosineSimilarity (some [1, 0]) (some [0, 1]) = 0 := by
  simp only [cosineSimilarity]
  norm_num [sumsqQ, dotQ]

def itemA : IndexItem := ⟨"a.md", 0, "alpha", some [1, 0]⟩

def itemB : IndexItem := ⟨"b.md", 0, "alpha", some [0, 1]⟩

theorem kwAlphaR : ((keywordScore "alpha" "alpha" : ℚ) : ℝ) = 1 := by
  rw [kwAlpha]
  norm_num

theorem kr_eval : keywordSearch [itemA, itemB] "alpha" 5 0 =
    [⟨itemA, chunkIdOf itemA, 1⟩, ⟨itemB, chunkIdOf itemB, 1⟩] := by
  simp only [keywordSearch, List.map, itemA, itemB]
  rw [kwAlphaR]
  norm_num [List.filter_cons, List.filter_nil, sortByScoreDesc, insertDesc,
    List.take]

theorem sr_eval : semanticSearch [itemA, itemB] (some [1, 0]) 5 0 =
    [⟨itemA, chunkIdOf itemA, 1⟩, ⟨itemB, chunkIdOf itemB, 0⟩] := by
  simp only [semanticSearch, List.map, itemA, itemB]
  rw [cos_10_10, cos_10_01]
  norm_num [List.filter_cons, List.filter_nil, sortByScoreDesc, insertDesc,
    List.take]

theorem merge_eval :
    hybridMerge [⟨itemA, chunkIdOf itemA, 1⟩, ⟨itemB, chunkIdOf itemB, 1⟩]
      [⟨itemA, chunkIdOf itemA, 1⟩, ⟨itemB, chunkIdOf itemB, 0⟩] =
    [⟨itemA, chunkIdOf itemA, 1⟩, ⟨itemB, chunkIdOf itemB, 1 / 2⟩] := by
  simp only [hybridMerge, List.foldl, mapSet, mapLookup]
  rw [if_neg (by decide : ¬ chunkIdOf itemA = chunkIdOf itemB)]
  norm_num [List.map]

theorem c3_lhs :
    searchChunks [itemA, itemB] (some [1, 0]) "alpha" "hybrid" (some 5)
      (some 0) "t" =
    [mkResultChunk "t" ⟨itemA, chunkIdOf itemA, 1⟩,
      mkResultChunk "t" ⟨itemB, chunkIdOf itemB, 1 / 2⟩] := by
  unfold searchChunks
  dsimp only
  rw [if_neg (by decide : ¬ ([itemA, itemB].length = 0))]
  rw [if_neg (by decide : ¬ ("hybrid" : String) = "semantic")]
  rw [if_pos rfl]
  rw [show resolveTopK (some 5) = 5 from rfl]
  rw [show Option.getD (some (0 : ℝ)) 0.3 = 0 from rfl]
  rw [kr_eval, sr_eval, merge_eval]
  norm_num [sortByScoreDesc, insertDesc, List.take, List.map]

theorem c3_rhs :
    (hybridSearch [itemA, itemB] (some [1, 0]) "alpha" 5 0).map
      (mkResultChunk "t") =
    [mkResultChunk "t" ⟨itemA, chunkIdOf itemA, 1⟩,
      mkResultChunk "t" ⟨itemB, chunkIdOf itemB, 3 / 10⟩] := by
  simp only [hybridSearch, List.map, itemA, itemB]
  rw [cos_10_10, cos_10_01, kwAlphaR]
  norm_num [List.filter_cons, List.filter_nil, sortByScoreDesc, insertDesc,
    List.take, List.map]

theorem resolveTopK_pos (tk : Option Nat) : 1 ≤ resolveTopK tk := by
  unfold resolveTopK
  rcases tk with _ | n
  · omega
  · dsimp only
    split <;> omega

theorem keyword_eval (tk : Option Nat) (now : String) :
    searchChunks [itemA] none "alpha" "keyword" tk (some 0) now =
      [mkResultChunk now ⟨itemA, chunkIdOf itemA, 1⟩] := by
  unfold searchChunks
  dsimp only
  rw [if_neg (by decide : ¬ ([itemA].length = 0))]
  rw [if_neg (by decide : ¬ ("keyword" : String) = "semantic")]
  rw [if_neg (by decide : ¬ ("keyword" : String) = "hybrid")]
  rw [show Option.getD (some (0 : ℝ)) 0.3 = 0 from rfl]
  simp only [keywordSearch, List.map]
  rw [show itemA.text = "alpha" from rfl]
  rw [kwAlphaR]
  have h1 : (([⟨itemA, chunkIdOf itemA, 1⟩] : List ScoredItem).filter
      (fun x => decide ((0 : ℝ) ≤ x.score))) = [⟨itemA, chunkIdOf itemA, 1⟩] := by
    norm_num [List.filter_cons, List.filter_nil]
  rw [h1]
  rw [show sortByScoreDesc [(⟨itemA, chunkIdOf itemA, 1⟩ : ScoredItem)]
      = [⟨itemA, chunkIdOf itemA, 1⟩] from rfl]
  rw [List.take_of_length_le (by simpa using resolveTopK_pos tk)]
  rfl

theorem searchChunks_modifiedAt (snapshot : List IndexItem)
    (qe : Option (List ℚ)) (query mode : String) (tk : Option Nat)
    (ms : Option ℝ) (now : String) :
    ∀ c ∈ searchChunks snapshot qe query mode tk ms now,
      c.modifiedAt = now := by
  intro c hc
  unfold searchChunks at hc
  dsimp only at hc
  split at hc
  · simp at hc
  · rcases List.mem_map.mp hc with ⟨r, _, rfl⟩
    rfl

/-- Counterexample to the single-pass description of hybrid search: on a
two-chunk snapshot the endpoint returns the second chunk with the averaged
score `(1 + 0) / 2 = 1/2`, while the `0.7/0.3` formula (the unused
`hybridSearch`) would give it `0.3`. -/
theorem searchChunks_hybrid_not_single_pass :
    searchChunks [itemA, itemB] (some [1, 0]) "alpha" "hybrid" (some 5)
      (some 0) "t" ≠
    (hybridSearch [itemA, itemB] (some [1, 0]) "alpha" (resolveTopK (some 5))
      ((some (0 : ℝ)).getD 0.3)).map (mkResultChunk "t") := by
  rw [c3_lhs, show resolveTopK (some 5) = 5 from rfl,
    show Option.getD (some (0 : ℝ)) 0.3 = 0 from rfl, c3_rhs]
  intro hc
  have h2 := congrArg (fun l => ((l.getLast?).map ResultChunk.score)) hc
  norm_num [mkResultChunk] at h2

/-- Counterexample to "`topK = 0` yields an empty result set": `0` is falsy
in `body.topK || 20`, so the default 20 applies and a matching chunk is
returned. -/
theorem searchChunks_topK_zero_nonempty :
    searchChunks [itemA] none "alpha" "keyword" (some 0) (some 0) "t" ≠ [] := by
  rw [keyword_eval]
  exact fun hc => List.noConfusion hc

/-- Counterexample to exact idempotence: the same search executed at two
different wall-clock times differs in the `modifiedAt` field. -/
theorem searchChunks_wall_clock_field :
    searchChunks [itemA] none "alpha" "keyword" (some 5) (some 0)
        "2025-01-01T00:00:00.000Z" ≠
      searchChunks [itemA] none "alpha" "keyword" (some 5) (some 0)
        "2025-01-01T00:00:01.000Z" := by
  rw [keyword_eval, keyword_eval]
  intro hc
  have h1 := congrArg (fun l => (l.map ResultChunk.modifiedAt)) hc
  simp only [List.map, mkResultChunk, List.cons.injEq, and_true] at h1
  exact absurd h1 (by decide)

/-- Sixty characters of content: one chunk per file. -/
def c60 : String :=
  "012345678901234567890123456789012345678901234567890123456789"

def files3 : List FileInput :=
  [⟨"a.md", c60, true⟩, ⟨"b.md", c60, true⟩, ⟨"c.md", c60, true⟩]

def files2 : List FileInput := [⟨"a.md", c60, true⟩, ⟨"b.txt", c60, true⟩]

def filesC9 : List FileInput :=
  [⟨"a.md", c60, true⟩, ⟨"bad.md", c60, false⟩, ⟨"c.md", c60, true⟩]

set_option maxRecDepth 10000 in
/-- Counterexample to "buffered chunks are not embedded after stop": a run
of three one-chunk files stopped before the third file holds two unembedded
chunks at loop exit, and both end up embedded by the drain loop. -/
theorem runIndexing_stop_embeds_buffered :
    (runIndexing files3 true (fun _ => [1]) (some 2)).chunksEmbedded = 2 ∧
    (runLoop (fun _ => [1]) (some 2) files3 0
      (sendUpdate .queued (startState true 3))).buffer.length = 2 := by
  decide

set_option maxRecDepth 10000 in
/-- Counterexample to the spec cadence: a failed file pushes a stats
snapshot even when its position is neither the first file nor a multiple
of 50. -/
theorem runIndexing_extra_update :
    (runIndexing filesC9 true (fun _ => [1]) none).log.all claimCadence
      = false := by
  decide

/-- Claim C1: a path is selected iff it matches an include pattern (or the
include list is empty) and matches no exclude pattern; every path the walk
yields is selected, and an exclude match keeps a path out of the walk's
output regardless of include matches. -/
theorem collectFiles_selection (sel : Selection) (maxDepth depth : Nat)
    (entries : List FSEntry) (folderPath p : String) :
    (entrySelected sel p = true ↔
      ((sel.include_ = [] ∨ ∃ r ∈ sel.include_, matchesGlob p r = true) ∧
        ∀ r ∈ sel.exclude, matchesGlob p r = false)) ∧
    (p ∈ collectFiles sel maxDepth depth folderPath entries →
      entrySelected sel p = true) ∧
    ((∃ r ∈ sel.exclude, matchesGlob p r = true) →
      p ∉ collectFiles sel maxDepth depth folderPath entries) := by
  refine ⟨entrySelected_iff sel p,
    fun hp => mem_collectFiles_selected sel maxDepth entries depth folderPath p hp,
    ?_⟩
  rintro ⟨r, hr, hm⟩ hp
  have h2 := ((entrySelected_iff sel p).mp
    (mem_collectFiles_selected sel maxDepth entries depth folderPath p hp)).2 r hr
  rw [hm] at h2
  exact Bool.noConfusion h2

/-- Claim C2: the chunker emits one window per multiple of the advance step
`500 - 100 = 400`, keeps a window iff its trimmed length exceeds 50, stops
at the first window reaching end-of-text, and consequently no output chunk
has trimmed length at most 50. -/
theorem chunkText_spec (t : List Char) :
    chunkText t = specChunks t ∧
    ∀ c ∈ chunkText t, 50 < (trimChars c).length := by
  refine ⟨chunkText_eq_specChunks t, fun c hc => ?_⟩
  rcases chunkText_threshold t c hc with ⟨h1, h2⟩
  rw [h2]
  exact h1

/-- Claim C4 (code bug): `src/unnamed/part_004` line 641 splits the query
with the regex `/\\s+/` — a literal backslash followed by `s` — so
"alpha beta" stays one term and scores `0` against a chunk containing only
"alpha", while the correct `/\s+/` split (`server.mjs` line 53, and the
repository's own test in `src/unnamed/part_007`) scores `1/2` as the spec's
scenario requires. -/
theorem keywordScoreP4_divergence :
    keywordScoreP4 "alpha text" "alpha beta" = 0 ∧
    keywordScore "alpha text" "alpha beta" = 1 / 2 := by
  constructor
  · have h1 : ((splitBS (lowerL ("alpha beta" : String).toList)).filter
        (fun t => t.length > 0)).length = 1 := by decide
    have h2 : ((splitBS (lowerL ("alpha beta" : String).toList)).filter
        (fun t => t.length > 0)).countP
        (fun t => containsSub (lowerL ("alpha text" : String).toList) t)
        = 0 := by decide
    simp only [keywordScoreP4]
    rw [if_neg (by decide)]
    rw [h2, h1]
    norm_num
  · have h1 : ((splitWs (lowerL ("alpha beta" : String).toList)).filter
        (fun t => t.length > 0)).length = 2 := by decide
    have h2 : ((splitWs (lowerL ("alpha beta" : String).toList)).filter
        (fun t => t.length > 0)).countP
        (fun t => containsSub (lowerL ("alpha text" : String).toList) t)
        = 1 := by decide
    simp only [keywordScore]
    rw [if_neg (by decide)]
    rw [h2, h1]
    norm_num

/-- Claim C10: `cosineSimilarity` is total — it returns `0` when either
vector is missing, when the lengths differ, or when the magnitude product
is zero, and otherwise exactly `dot(a,b) / (|a|·|b|)`; no division by zero
ever occurs. -/
theorem cosineSimilarity_total (a b : Option (List ℚ)) :
    (cosineSimilarity none b = 0) ∧
    (cosineSimilarity a none = 0) ∧
    (∀ va vb : List ℚ, ¬ va.length = vb.length →
      cosineSimilarity (some va) (some vb) = 0) ∧
    (∀ va vb : List ℚ, va.length = vb.length →
      Real.sqrt (sumsqQ va) * Real.sqrt (sumsqQ vb) = 0 →
      cosineSimilarity (some va) (some vb) = 0) ∧
    (∀ va vb : List ℚ, va.length = vb.length →
      ¬ Real.sqrt (sumsqQ va) * Real.sqrt (sumsqQ vb) = 0 →
      cosineSimilarity (some va) (some vb) =
        ((dotQ va vb : ℚ) : ℝ) /
          (Real.sqrt (sumsqQ va) * Real.sqrt (sumsqQ vb))) := by
  refine ⟨by cases b <;> rfl, by cases a <;> rfl, ?_, ?_, ?_⟩
  · intro va vb h
    simp only [cosineSimilarity]
    rw [if_neg h]
  · intro va vb h hm
    simp only [cosineSimilarity]
    rw [if_pos h]
    rw [if_pos hm]
  · intro va vb h hm
    simp only [cosineSimilarity]
    rw [if_pos h]
    rw [if_neg hm]

/-- Claim C7 (amended): every returned chunk's score is at least the
effective `minScore` (the filter runs before truncation), and
`minScore = 1.01` yields an empty result set in every mode; but `topK = 0`
is falsy in `body.topK || 20` and behaves as the default 20 rather than
yielding an empty set. -/
theorem searchChunks_filter_clamp (snapshot : List IndexItem) (qe : Option (List ℚ))
    (query mode : String) (tk : Option Nat) (now : String) :
    (∀ ms : Option ℝ, ∀ c ∈ searchChunks snapshot qe query mode tk ms now,
      ms.getD 0.3 ≤ c.score) ∧
    (searchChunks snapshot qe query mode tk (some 1.01) now = []) ∧
    (∀ ms : Option ℝ, searchChunks snapshot qe query mode (some 0) ms now
      = searchChunks snapshot qe query mode none ms now) :=
  ⟨fun ms => searchChunks_minScore snapshot qe query mode tk ms now,
   searchChunks_high_minScore snapshot qe query mode tk now 1.01 (by norm_num),
   fun ms => searchChunks_topK_zero snapshot qe query mode ms now⟩

/-- Claim C8 (amended): re-running a search with identical arguments against
an unchanged snapshot returns the same chunks, scores, order and fields
except `modifiedAt`, which is the wall-clock time of response construction
(`new Date().toISOString()`), not a property of the result. -/
theorem searchChunks_deterministic_up_to_time (snapshot : List IndexItem) (qe : Option (List ℚ))
    (query mode : String) (tk : Option Nat) (ms : Option ℝ)
    (now1 now2 : String) :
    (searchChunks snapshot qe query mode tk ms now1).map dropTime
      = (searchChunks snapshot qe query mode tk ms now2).map dropTime ∧
    ∀ c ∈ searchChunks snapshot qe query mode tk ms now1,
      c.modifiedAt = now1 :=
  ⟨searchChunks_time_invariant snapshot qe query mode tk ms now1 now2,
   searchChunks_modifiedAt snapshot qe query mode tk ms now1⟩

theorem searchChunks_hybrid_merge_witness :
    searchChunks [itemA, itemB] (some [1, 0]) "alpha" "hybrid" (some 5)
        (some 0) "t" =
      ((sortByScoreDesc (hybridMerge
          (keywordSearch [itemA, itemB] "alpha" (resolveTopK (some 5))
            ((some (0 : ℝ)).getD 0.3))
          (semanticSearch [itemA, itemB] (some [1, 0]) (resolveTopK (some 5))
            ((some (0 : ℝ)).getD 0.3)))).take
        (resolveTopK (some 5))).map (mkResultChunk "t") :=
  (searchChunks_hybrid_merge [itemA, itemB] [1, 0] "alpha" (some 5) (some 0)
    "t" (by decide) (by decide)).1

set_option maxRecDepth 10000 in
theorem runIndexing_stop_witness :
    (runIndexing files3 true (fun _ => [1]) (some 2)).filesProcessed +
        (runIndexing files3 true (fun _ => [1]) (some 2)).filesFailed = 2 ∧
    (runIndexing files3 true (fun _ => [1]) (some 2)).buffer = [] ∧
    (runIndexing files3 true (fun _ => [1]) (some 2)).chunksEmbedded
      = (runIndexing files3 true (fun _ => [1]) (some 2)).chunksGenerated ∧
    ((runIndexing files3 true (fun _ => [1]) (some 2)).store ≠ [] →
      (runIndexing files3 true (fun _ => [1]) (some 2)).snapshotSaved
        = true) ∧
    (runIndexing files3 true (fun _ => [1]) (some 2)).running = false ∧
    ∀ p f e, Msg.complete p f e ∉
      (runIndexing files3 true (fun _ => [1]) (some 2)).log :=
  runIndexing_stop files3 (fun _ => [1]) 2 (by decide)

set_option maxRecDepth 10000 in
theorem runIndexing_noEmbed_witness :
    (runIndexing files2 false (fun _ => [1]) none).filesQueued
      = files2.length ∧
    (runIndexing files2 false (fun _ => [1]) none).filesProcessed
      = files2.length ∧
    (runIndexing files2 false (fun _ => [1]) none).chunksEmbedded = 0 ∧
    (∃ g, (runIndexing files2 false (fun _ => [1]) none).log.getLast?
        = some (Msg.stats .final "idle" files2.length files2.length 0 g 0)) ∧
    ∀ t, Msg.error t ∉ (runIndexing files2 false (fun _ => [1]) none).log :=
  runIndexing_noEmbed files2 (fun _ => [1]) (by decide)

end Indexer
